import Mathlib

/-!
Verification development for the cooperative task scheduler with a bounded
offload pool described by the repository notes: the phase-ordered callback
scheduler, its timer and continuation queues, the fixed-size blocking-task
worker pool, and the isolated worker-context abstraction.

The scheduler itself is described by the notes and the specification, not
implemented in the repository, so its operations are modelled from the
spec and the claims are settled against that model. The worker-thread
numeric example of the source computes in IEEE-754 doubles and is not
embedded here.
-/

namespace NodeRt

/-! ## Worker Context isolation model (spec section 4.5)

Modelled from the spec: the Worker Context implementation is not under src/
(the notes only show the worker_threads example); the spec says the context
owns private memory, communicates exclusively through send, and messages are
copied, never referenced. A context program is a list of instructions that
either mutate the private memory or send a copy of one memory cell to the
owner; the owner observes only the message list. -/
inductive CtxInstr where
  | mutate (addr val : Nat)
  | sendMsg (addr : Nat)
deriving DecidableEq, Repr

/-- Modelled from the spec: running a context program over its private memory
returns the final memory together with the list of messages sent to the
owner; a sent message is the value (a copy) of the named cell at send time. -/
def ctxRun : List CtxInstr → (Nat → Nat) → ((Nat → Nat) × List Nat)
  | [], mem => (mem, [])
  | .mutate a v :: rest, mem => ctxRun rest (Function.update mem a v)
  | .sendMsg a :: rest, mem =>
      let r := ctxRun rest mem
      (r.1, mem a :: r.2)

/-- The addresses a context program ever sends to its owner. -/
def sentAddrs : List CtxInstr → List Nat
  | [] => []
  | .mutate _ _ :: rest => sentAddrs rest
  | .sendMsg a :: rest => a :: sentAddrs rest

/-- Modelled from the spec: the owner reacts to each received (copied)
message through its onMessage handler; its observable behaviour is a
function of the received message payloads only. -/
def ownerRun (handler : Nat → Nat) (msgs : List Nat) : List Nat :=
  msgs.map handler

/-- Modelled from the spec: spawn a context on a program and private memory;
the owner observable behaviour is ownerRun applied to the messages that
crossed the channel. No other component of the context state reaches the
owner. -/
def spawnAndObserve (handler : Nat → Nat) (prog : List CtxInstr)
    (mem : Nat → Nat) : List Nat :=
  ownerRun handler (ctxRun prog mem).2

/-! ## Scheduler phases and callbacks (spec sections 2 to 4.3)

Modelled from the spec: the scheduler implementation is not under src/ (the
notes only document the phase rotation); the model follows the spec: phase
queues visited in the fixed rotation Timers, Pending-Completion, Poll,
Check, Close; a continuation queue drained to exhaustion after every
callback; a timer registry promoted into the Timers phase each tick. -/

/-- The five phases of one scheduler tick, in rotation order. -/
inductive Phase where
  | timers
  | pending
  | poll
  | check
  | close
deriving DecidableEq, Repr

/-- Modelled from the spec: a callback is a finite list of effects: emit an
observable tag, enqueue a continuation, enqueue a callback on a phase
(onNextPhase / setImmediate), schedule a timer (delay, optional repeat
interval), or cancel a timer by id. -/
inductive Action where
  | emit (tag : Nat)
  | contA (cb : List Action)
  | phaseA (p : Phase) (cb : List Action)
  | timerA (delay : Nat) (interval : Option Nat) (cb : List Action)
  | cancelA (tid : Nat)

/-- A callback body. -/
abbrev Cb := List Action

/-- An observable trace event: the phase under which it ran and its tag. -/
structure Event where
  phase : Phase
  tag : Nat
deriving DecidableEq, Repr

/-- A phase-queue entry: timer callbacks carry their timer id so that the
cancelled flag is re-checked immediately before firing. -/
structure Entry where
  guardId : Option Nat
  cb : Cb

/-- Modelled from the spec: a pending timer of the Timer Registry: id,
absolute deadline, optional repeat interval, callback. The cancelled flag
of the spec record is represented by membership of the id in the scheduler
cancelledIds list so that it survives removal from the registry and is
still consulted at fire time. -/
structure Timer where
  tid : Nat
  deadline : Nat
  interval : Option Nat
  cb : Cb

/-! ## Worker Pool model (spec section 4.4) -/

/-- Modelled from the spec: the PoolSaturated operational error. -/
inductive PoolError where
  | poolSaturated
deriving DecidableEq, Repr

/-- Modelled from the spec: a Job submitted to the Worker Pool: an operation
applied to a payload inside a lane; the operation may fail, and the failure
is delivered as an error result. The duration is the number of pool steps
the operation occupies its lane. -/
structure Job where
  id : Nat
  duration : Nat
  op : Nat → Except String Nat
  payload : Nat
  onComplete : Cb := []

/-- A job occupying a lane: no lane-level concurrency, one job per lane. -/
structure RunningJob where
  job : Job
  remaining : Nat

/-- Modelled from the spec: the Worker Pool: a fixed number of lanes
(poolSize), one shared FIFO job queue, an optional maxQueueDepth bound
(none means unbounded-with-warning, the default), a clock, and logs of
starts (id, time) and completions (id, result, time). -/
structure PoolState where
  poolSize : Nat
  maxQueueDepth : Option Nat
  queue : List Job
  lanes : List RunningJob
  startLog : List (Nat × Nat)
  doneLog : List (Nat × Except String Nat × Nat)
  time : Nat

/-- Modelled from the spec: pool.submit appends to the FIFO jobQueue, unless
the configured maxQueueDepth bound is exceeded, in which case it fails fast
with PoolSaturated. -/
def submit (s : PoolState) (j : Job) : Except PoolError PoolState :=
  match s.maxQueueDepth with
  | none => .ok { s with queue := s.queue ++ [j] }
  | some bound =>
      if bound < s.queue.length then .error .poolSaturated
      else .ok { s with queue := s.queue ++ [j] }

/-- True when a submit call was rejected. -/
def submitRejected (r : Except PoolError PoolState) : Bool :=
  match r with
  | .error _ => true
  | .ok _ => false

/-- The spec default configuration: poolSize 4, maxQueueDepth unbounded. -/
def defaultPool : PoolState :=
  { poolSize := 4, maxQueueDepth := none, queue := [], lanes := [],
    startLog := [], doneLog := [], time := 0 }

/-- A trivial job used in concrete instances. -/
def mkJob (i : Nat) : Job :=
  { id := i, duration := 1, op := fun p => Except.ok p, payload := 0 }

/-- A pool whose bound of 1 is already exceeded by a queue of length 2. -/
def saturatedPool : PoolState :=
  { defaultPool with maxQueueDepth := some 1, queue := [mkJob 0, mkJob 1] }

/-- One pool lane time step on a running job. -/
def laneTick (r : RunningJob) : RunningJob :=
  { r with remaining := r.remaining - 1 }

/-- All lanes after one time unit. -/
def poolTicked (s : PoolState) : List RunningJob :=
  s.lanes.map laneTick

/-- The lane jobs finishing in this step. -/
def poolDone (s : PoolState) : List RunningJob :=
  (poolTicked s).filter (fun r => r.remaining == 0)

/-- The lane jobs still running after this step. -/
def poolStill (s : PoolState) : List RunningJob :=
  (poolTicked s).filter (fun r => !(r.remaining == 0))

/-- The number of lanes free after the finishing jobs leave. -/
def poolFree (s : PoolState) : Nat :=
  s.poolSize - (poolStill s).length

/-- The jobs pulled from the FIFO queue into the free lanes. -/
def poolStarted (s : PoolState) : List Job :=
  s.queue.take (poolFree s)

/-- Modelled from the spec: one synchronous step of the Worker Pool: every
lane advances its job by one time unit; jobs that finish leave their lane,
their result (the operation applied to the payload, an error result when
the operation throws) is recorded in the completion log together with the
completion time; then free lanes pull jobs from the shared FIFO queue, and
the starts are logged. Returns the new pool together with the completion
callbacks to enqueue on the owning scheduler PendingCompletion queue. -/
def poolStep (s : PoolState) : PoolState × List Cb :=
  ({ s with
      queue := s.queue.drop (poolFree s),
      lanes := poolStill s ++ (poolStarted s).map (fun j => ⟨j, j.duration⟩),
      startLog := s.startLog ++ (poolStarted s).map (fun j => (j.id, s.time + 1)),
      doneLog := s.doneLog ++
        (poolDone s).map (fun r => (r.job.id, r.job.op r.job.payload, s.time + 1)),
      time := s.time + 1 },
   (poolDone s).map (fun r => r.job.onComplete))

/-- The pool after one step, discarding the completion callbacks. -/
def poolAdvance (s : PoolState) : PoolState :=
  (poolStep s).1

/-- The pool after k steps. -/
def poolAdvanceN : Nat → PoolState → PoolState
  | 0, s => s
  | k + 1, s => poolAdvanceN k (poolAdvance s)

/-- Modelled from the spec: a pool of poolSize n with m jobs submitted
simultaneously at time 0: the first n jobs occupy the lanes at once (their
starts logged at time 0) and the rest wait in the FIFO queue. -/
def poolInit (n : Nat) (jobs : List Job) : PoolState :=
  { poolSize := n, maxQueueDepth := none,
    queue := jobs.drop n,
    lanes := (jobs.take n).map (fun j => ⟨j, j.duration⟩),
    startLog := (jobs.take n).map (fun j => (j.id, 0)),
    doneLog := [], time := 0 }

/-! ## Scheduler Loop state (spec sections 4.1 to 4.3, 5) -/

/-- Modelled from the spec: the whole scheduler state: clock, Timer
Registry (in registration order), fresh timer id counter, cancelled timer
ids, the five phase queues, the Continuation Queue, the log of timer ids
whose callback actually fired, the observable trace, the Worker Pool and
the number of live Worker Contexts. -/
structure EL where
  now : Nat
  registry : List Timer
  nextTid : Nat
  cancelledIds : List Nat
  timersQ : List Entry
  pendingQ : List Entry
  pollQ : List Entry
  checkQ : List Entry
  closeQ : List Entry
  contQ : List Cb
  fired : List Nat
  trace : List Event
  pool : PoolState
  liveContexts : Nat

/-- The queue of a phase. -/
def EL.queueOf (s : EL) : Phase → List Entry
  | .timers => s.timersQ
  | .pending => s.pendingQ
  | .poll => s.pollQ
  | .check => s.checkQ
  | .close => s.closeQ

/-- Replace the queue of a phase. -/
def EL.setQueue (s : EL) : Phase → List Entry → EL
  | .timers, q => { s with timersQ := q }
  | .pending, q => { s with pendingQ := q }
  | .poll, q => { s with pollQ := q }
  | .check, q => { s with checkQ := q }
  | .close, q => { s with closeQ := q }

/-- Append an entry to the queue of a phase. -/
def enqueueEntry (s : EL) (p : Phase) (e : Entry) : EL :=
  s.setQueue p (s.queueOf p ++ [e])

/-- Modelled from the spec: executing one effect of a callback running
under phase ph: emit appends a trace event tagged with ph, contA appends to
the Continuation Queue, phaseA appends a plain entry to a phase queue,
timerA registers a timer with deadline now + delay, cancelA marks a timer
id cancelled. -/
def runAction (ph : Phase) (s : EL) : Action → EL
  | .emit tag => { s with trace := s.trace ++ [⟨ph, tag⟩] }
  | .contA cb => { s with contQ := s.contQ ++ [cb] }
  | .phaseA p cb => enqueueEntry s p ⟨none, cb⟩
  | .timerA d i cb =>
      { s with registry := s.registry ++ [⟨s.nextTid, s.now + d, i, cb⟩],
               nextTid := s.nextTid + 1 }
  | .cancelA tid => { s with cancelledIds := s.cancelledIds ++ [tid] }

/-- Run a whole callback body under phase ph. -/
def runCb (ph : Phase) (s : EL) (cb : Cb) : EL :=
  cb.foldl (runAction ph) s

mutual

/-- Size of one callback effect; enqueued callback bodies count inside. -/
def actSize : Action → Nat
  | .emit _ => 1
  | .contA cb => 1 + cbSize cb
  | .phaseA _ cb => 1 + cbSize cb
  | .timerA _ _ cb => 1 + cbSize cb
  | .cancelA _ => 1
termination_by a => sizeOf a

/-- Size of a callback body; always at least 1. -/
def cbSize : List Action → Nat
  | [] => 1
  | a :: rest => actSize a + cbSize rest
termination_by l => sizeOf l

end

/-- Total size of the pending continuations, the fuel bound of the drain. -/
def contMeasure (q : List Cb) : Nat :=
  (q.map cbSize).sum

/-- Modelled from the spec: draining the Continuation Queue FIFO to
exhaustion: pop the front continuation, run it (it may enqueue further
continuations, which are drained too), repeat while the queue is nonempty.
The fuel argument is a bound on the remaining work; contMeasure always
suffices, see drainFuel_contQ_empty. -/
def drainFuel : Nat → Phase → EL → EL
  | 0, _, s => s
  | n + 1, ph, s =>
      match s.contQ with
      | [] => s
      | cb :: rest => drainFuel n ph (runCb ph { s with contQ := rest } cb)

/-- Drain the Continuation Queue to exhaustion. -/
def drain (ph : Phase) (s : EL) : EL :=
  drainFuel (contMeasure s.contQ) ph s

/-- Modelled from the spec: run one phase-queue entry and then drain the
Continuation Queue completely before the next entry runs. A timer entry
re-checks the cancelled flag immediately before firing: a cancelled timer
callback is skipped; an actually firing timer is recorded in the fired
log. -/
def runEntry (ph : Phase) (s : EL) (e : Entry) : EL :=
  match e.guardId with
  | none => drain ph (runCb ph s e.cb)
  | some tid =>
      if tid ∈ s.cancelledIds then s
      else drain ph (runCb ph { s with fired := s.fired ++ [tid] } e.cb)

/-- Run a list of ready entries in FIFO order. -/
def runEntries (ph : Phase) (s : EL) (es : List Entry) : EL :=
  es.foldl (runEntry ph) s

/-- Modelled from the spec: processing one phase: dequeue the currently
ready callbacks (the snapshot), leaving the queue empty so that callbacks
enqueued during the processing run on a later pass, and execute the
snapshot in FIFO order, draining continuations after each. -/
def runPhase (ph : Phase) (s : EL) : EL :=
  runEntries ph (s.setQueue ph []) (s.queueOf ph)

/-- A timer is due when its deadline has elapsed and it is not cancelled. -/
def timerDue (now : Nat) (cancelled : List Nat) (t : Timer) : Bool :=
  decide (t.deadline ≤ now) && !(decide (t.tid ∈ cancelled))

/-- Insert a timer behind every timer of deadline at most its own,
keeping the list sorted by deadline with ties in insertion order. -/
def insertByDeadline (t : Timer) : List Timer → List Timer
  | [] => [t]
  | u :: rest =>
      if u.deadline ≤ t.deadline then u :: insertByDeadline t rest
      else t :: u :: rest

/-- Stable sort by deadline ascending, ties broken by registration order. -/
def sortByDeadline (l : List Timer) : List Timer :=
  l.foldl (fun acc t => insertByDeadline t acc) []

/-- Modelled from the spec: before the Timers phase of each tick the
registry moves every elapsed, non-cancelled timer into the Timers phase
queue, ordered by deadline ascending with ties in registration order;
periodic timers are rescheduled for now + interval; cancelled timers are
destroyed without firing. -/
def promoteTimers (s : EL) : EL :=
  let due := sortByDeadline (s.registry.filter (timerDue s.now s.cancelledIds))
  let keep := s.registry.filter
    (fun t => !(timerDue s.now s.cancelledIds t) && !(decide (t.tid ∈ s.cancelledIds)))
  let rescheduled := due.filterMap
    (fun t => t.interval.map (fun i => { t with deadline := s.now + i }))
  { s with registry := keep ++ rescheduled,
           timersQ := s.timersQ ++ due.map (fun t => ⟨some t.tid, t.cb⟩) }

/-- Modelled from the spec: the Worker Pool advances once per tick; lane
completion callbacks are appended to the PendingCompletion phase queue of
the owning scheduler. -/
def tickPool (s : EL) : EL :=
  let r := poolStep s.pool
  { s with pool := r.1,
           pendingQ := s.pendingQ ++ r.2.map (fun cb => ⟨none, cb⟩) }

/-- Modelled from the spec: one scheduler tick: promote due timers, then
visit the phase queues in the fixed rotation Timers, PendingCompletion,
Poll, Check, Close, then advance the Worker Pool, then advance the clock. -/
def tick (s : EL) : EL :=
  let s1 := promoteTimers s
  let s2 := runPhase .timers s1
  let s3 := runPhase .pending s2
  let s4 := runPhase .poll s3
  let s5 := runPhase .check s4
  let s6 := runPhase .close s5
  let s7 := tickPool s6
  { s7 with now := s7.now + 1 }

/-- The scheduler after n ticks. -/
def tickN : Nat → EL → EL
  | 0, s => s
  | n + 1, s => tickN n (tick s)

/-- The pool has neither queued nor in-flight jobs. -/
def poolIdle (p : PoolState) : Bool :=
  p.queue.isEmpty && p.lanes.isEmpty

/-- Modelled from the spec: no work remains: all phase queues, the
Continuation Queue and the Timer Registry are empty, the Worker Pool has no
in-flight or queued jobs, and no Worker Context is live. -/
def loopDone (s : EL) : Bool :=
  s.timersQ.isEmpty && s.pendingQ.isEmpty && s.pollQ.isEmpty &&
  s.checkQ.isEmpty && s.closeQ.isEmpty && s.contQ.isEmpty &&
  s.registry.isEmpty && poolIdle s.pool && (s.liveContexts == 0)

/-- Modelled from the spec: the Scheduler Loop run(): keep ticking while
work remains, stop as soon as none does. The fuel argument bounds the
number of ticks inspected; none means the loop was still ticking. -/
def run : Nat → EL → Option EL
  | 0, _ => none
  | fuel + 1, s => if loopDone s then some s else run fuel (tick s)

/-- The empty scheduler state. -/
def emptyEL : EL :=
  { now := 0, registry := [], nextTid := 0, cancelledIds := [],
    timersQ := [], pendingQ := [], pollQ := [], checkQ := [], closeQ := [],
    contQ := [], fired := [], trace := [], pool := defaultPool,
    liveContexts := 0 }

/-- The list of events appended to the trace between two states. -/
def newEvents (s s₂ : EL) : List Event :=
  s₂.trace.drop s.trace.length

/-- True when no Timers-phase event occurs after a Check-phase event. -/
def noTimersAfterCheck : List Event → Bool
  | [] => true
  | e :: rest =>
      (if e.phase == Phase.check
       then rest.all (fun x => !(x.phase == Phase.timers))
       else true) && noTimersAfterCheck rest

/-- Index of the first event carrying a tag. -/
def firstTagIdx (tag : Nat) (evs : List Event) : Nat :=
  evs.findIdx (fun e => e.tag == tag)

/-- True when both tags occur and the first occurrence of tag t₁ precedes
the first occurrence of tag t₂. -/
def tagBefore (t₁ t₂ : Nat) (evs : List Event) : Bool :=
  evs.any (fun e => e.tag == t₁) && evs.any (fun e => e.tag == t₂) &&
  decide (firstTagIdx t₁ evs < firstTagIdx t₂ evs)

/-- The scenario of the notes: during a Poll-phase (I/O) callback both a
zero-delay timer (setTimeout 0, emitting tag 100) and a Check-phase
callback (setImmediate, emitting tag 200) are registered. -/
def pollRaceStart : EL :=
  { emptyEL with
      pollQ := [⟨none, [Action.timerA 0 none [Action.emit 100],
                        Action.phaseA Phase.check [Action.emit 200]]⟩] }

/-- The trace between s and s₂ extends only with events of phase ph. -/
def tracePh (ph : Phase) (s s₂ : EL) : Prop :=
  ∃ evs, s₂.trace = s.trace ++ evs ∧ ∀ e ∈ evs, e.phase = ph

/-- Every guarded entry of the list carries a timer id below the bound. -/
def guardsBelow (b : Nat) (es : List Entry) : Prop :=
  ∀ e ∈ es, ∀ tid, e.guardId = some tid → tid < b

/-- Timer ids are allocated consistently: every registry timer and every
guarded queue entry carries an id below the next fresh id. Holds in every
state the scheduler builds from scratch, since ids come from the counter. -/
def freshTids (s : EL) : Prop :=
  (∀ tm ∈ s.registry, tm.tid < s.nextTid) ∧
  guardsBelow s.nextTid s.timersQ ∧ guardsBelow s.nextTid s.pendingQ ∧
  guardsBelow s.nextTid s.pollQ ∧ guardsBelow s.nextTid s.checkQ ∧
  guardsBelow s.nextTid s.closeQ

/-- Mid-tick invariant for the bound b and the fired log base: every
guarded entry still pending carries an id below b, and every fired id at
least b was already fired in the base. Timers registered during the tick
get ids at least b and hence cannot fire within the tick. -/
def tickSafe (b : Nat) (base : List Nat) (σ : EL) : Prop :=
  guardsBelow b σ.timersQ ∧ guardsBelow b σ.pendingQ ∧
  guardsBelow b σ.pollQ ∧ guardsBelow b σ.checkQ ∧
  guardsBelow b σ.closeQ ∧
  (∀ tid, b ≤ tid → tid ∈ σ.fired → tid ∈ base)

/-- The timer id is cancelled and its callback has not fired. -/
def cancelSafe (tid : Nat) (s : EL) : Prop :=
  tid ∈ s.cancelledIds ∧ tid ∉ s.fired

/-- A scheduler state with one pending entry, hence not done. -/
def busyEL : EL :=
  { emptyEL with pendingQ := [⟨none, []⟩] }

/-- A scheduler at time 5 holding one elapsed timer (id 0, deadline 0)
whose id was cancelled before its callback executed. -/
def cancelRaceEL : EL :=
  { emptyEL with
      now := 5
      registry := [⟨0, 0, none, [Action.emit 1]⟩]
      cancelledIds := [0] }

/-- Invariant of a pool of size n serving a batch of simultaneously
submitted jobs: the size is fixed; at most n lanes are occupied; while jobs
wait in the queue every lane is occupied; the started jobs are exactly a
FIFO prefix of the submission order, the queue holding the rest; and every
occupied lane runs a job that was logged as started. -/
structure PoolInv (n : Nat) (jobs : List Job) (s : PoolState) : Prop where
  size_eq : s.poolSize = n
  lanes_le : s.lanes.length ≤ n
  full : s.queue ≠ [] → s.lanes.length = n
  fifo : ∃ k, s.startLog.map Prod.fst = (jobs.map Job.id).take k ∧
      s.queue = jobs.drop k
  lanes_started : ∀ r ∈ s.lanes, r.job.id ∈ s.startLog.map Prod.fst

/-- Two unit-duration jobs for concrete pool instances. -/
def twoJobs : List Job := [mkJob 0, mkJob 1]

/-- An operation that always throws. -/
def throwingOp : Nat → Except String Nat := fun _ => .error "boom"

/-- Two jobs with the same id and duration; operation and payload may
differ. -/
def sameJob (j₁ j₂ : Job) : Prop :=
  j₁.id = j₂.id ∧ j₁.duration = j₂.duration

/-- Two lane occupants with the same job shape and remaining time. -/
def sameRun (r₁ r₂ : RunningJob) : Prop :=
  sameJob r₁.job r₂.job ∧ r₁.remaining = r₂.remaining

/-- Two pools that agree on everything the job operations cannot influence:
size, queue and lane shapes, the start log, and the completion ids and
times; only the recorded results may differ. -/
def samePool (s₁ s₂ : PoolState) : Prop :=
  s₁.poolSize = s₂.poolSize ∧
  List.Forall₂ sameJob s₁.queue s₂.queue ∧
  List.Forall₂ sameRun s₁.lanes s₂.lanes ∧
  s₁.startLog = s₂.startLog ∧
  s₁.doneLog.map (fun e => (e.1, e.2.2)) = s₂.doneLog.map (fun e => (e.1, e.2.2)) ∧
  s₁.time = s₂.time

/-- Every lane and queue job comes from the submitted batch, and every
completion entry carries the result of its own job operation applied to its
own payload: failures are delivered as error results to the failing job
only. -/
def deliverOK (jobs : List Job) (s : PoolState) : Prop :=
  (∀ r ∈ s.lanes, r.job ∈ jobs) ∧ (∀ j ∈ s.queue, j ∈ jobs) ∧
  (∀ e ∈ s.doneLog, ∃ j ∈ jobs, j.id = e.1 ∧ e.2.1 = j.op j.payload)

/-- The batch with the operation and payload of the job at position i
replaced; id and duration are untouched. -/
def failJobs (jobs : List Job) (i : Nat) (opB : Nat → Except String Nat)
    (payB : Nat) : List Job :=
  jobs.modify (fun j => { j with op := opB, payload := payB }) i

end NodeRt

/-! ## Lemmas and theorems -/

namespace NodeRt

/-- Messages depend only on the memory cells the program ever sends. -/
lemma ctxRun_msgs_congr (prog : List CtxInstr) :
    ∀ mem₁ mem₂ : Nat → Nat,
      (∀ a ∈ sentAddrs prog, mem₁ a = mem₂ a) →
      (ctxRun prog mem₁).2 = (ctxRun prog mem₂).2 := by
  induction prog with
  | nil => intro mem₁ mem₂ _; rfl
  | cons i rest ih =>
      intro mem₁ mem₂ hagree
      cases i with
      | mutate a v =>
          simp only [ctxRun]
          apply ih
          intro b hb
          by_cases hba : b = a
          · subst hba; simp [Function.update]
          · simp only [Function.update, dif_neg hba]
            exact hagree b hb
      | sendMsg a =>
          simp only [ctxRun]
          have ha : mem₁ a = mem₂ a := hagree a (by simp [sentAddrs])
          have hrest : (ctxRun rest mem₁).2 = (ctxRun rest mem₂).2 := by
            apply ih
            intro b hb
            exact hagree b (by simp [sentAddrs, hb])
          simp [ha, hrest]

/-- A mutation appended after a program does not alter the messages the
program already produced: messages are copies, not references. -/
lemma ctxRun_msgs_copy (prog : List CtxInstr) (a v : Nat) :
    ∀ mem : Nat → Nat,
      (ctxRun (prog ++ [CtxInstr.mutate a v]) mem).2 = (ctxRun prog mem).2 := by
  induction prog with
  | nil => intro mem; simp [ctxRun]
  | cons i rest ih =>
      intro mem
      cases i with
      | mutate b w => simp only [List.cons_append, ctxRun]; exact ih _
      | sendMsg b => simp only [List.cons_append, ctxRun]; simp [ih]

/-- Every effect has positive size. -/
lemma one_le_actSize (a : Action) : 1 ≤ actSize a := by
  cases a <;> simp [actSize]

/-- Every callback body has positive size. -/
lemma one_le_cbSize (cb : Cb) : 1 ≤ cbSize cb := by
  cases cb with
  | nil => simp [cbSize]
  | cons a rest =>
      have := one_le_actSize a
      simp [cbSize]
      omega

/-- Replacing a phase queue leaves the continuation queue unchanged. -/
lemma setQueue_contQ (s : EL) (p : Phase) (q : List Entry) :
    (s.setQueue p q).contQ = s.contQ := by
  cases p <;> rfl

/-- Replacing a phase queue leaves the trace unchanged. -/
lemma setQueue_trace (s : EL) (p : Phase) (q : List Entry) :
    (s.setQueue p q).trace = s.trace := by
  cases p <;> rfl

/-- Replacing a phase queue leaves the cancelled ids unchanged. -/
lemma setQueue_cancelledIds (s : EL) (p : Phase) (q : List Entry) :
    (s.setQueue p q).cancelledIds = s.cancelledIds := by
  cases p <;> rfl

/-- Replacing a phase queue leaves the fired log unchanged. -/
lemma setQueue_fired (s : EL) (p : Phase) (q : List Entry) :
    (s.setQueue p q).fired = s.fired := by
  cases p <;> rfl

/-- The measure of an extended continuation queue. -/
lemma contMeasure_append (q : List Cb) (cb : Cb) :
    contMeasure (q ++ [cb]) = contMeasure q + cbSize cb := by
  simp [contMeasure]

/-- One effect can add at most its own size (minus one) of continuations. -/
lemma contMeasure_runAction (ph : Phase) (s : EL) (a : Action) :
    contMeasure (runAction ph s a).contQ + 1 ≤ contMeasure s.contQ + actSize a := by
  cases a with
  | emit t => simp [runAction, actSize]
  | contA cb =>
      simp [runAction, actSize, contMeasure_append]
      omega
  | phaseA p cb =>
      have := one_le_cbSize cb
      simp only [runAction, enqueueEntry, setQueue_contQ, actSize]
      omega
  | timerA d i cb =>
      have := one_le_cbSize cb
      simp only [runAction, actSize]
      omega
  | cancelA t => simp [runAction, actSize]

/-- A callback can add strictly fewer continuations than its own size. -/
lemma contMeasure_runCb (ph : Phase) (cb : Cb) :
    ∀ s : EL, contMeasure (runCb ph s cb).contQ + 1 ≤ contMeasure s.contQ + cbSize cb := by
  induction cb with
  | nil => intro s; simp [runCb, cbSize]
  | cons a rest ih =>
      intro s
      have h1 := contMeasure_runAction ph s a
      have h2 := ih (runAction ph s a)
      simp only [runCb, List.foldl_cons] at h2 ⊢
      simp only [cbSize]
      omega

/-- Draining an empty continuation queue is the identity. -/
lemma drainFuel_nilQ (n : Nat) (ph : Phase) (s : EL) (h : s.contQ = []) :
    drainFuel n ph s = s := by
  cases n with
  | zero => rfl
  | succ m => simp [drainFuel, h]

/-- A queue of measure zero is empty. -/
lemma contMeasure_eq_zero (q : List Cb) (h : contMeasure q = 0) : q = [] := by
  cases q with
  | nil => rfl
  | cons cb rest =>
      exfalso
      have := one_le_cbSize cb
      simp [contMeasure] at h
      omega

/-- The fuel contMeasure suffices: the drain empties the queue. -/
lemma drainFuel_contQ_empty : ∀ (n : Nat) (ph : Phase) (s : EL),
    contMeasure s.contQ ≤ n → (drainFuel n ph s).contQ = [] := by
  intro n
  induction n with
  | zero =>
      intro ph s h
      have hq : s.contQ = [] := contMeasure_eq_zero _ (Nat.le_zero.mp h)
      simpa [drainFuel] using hq
  | succ m ih =>
      intro ph s h
      cases hq : s.contQ with
      | nil =>
          rw [drainFuel_nilQ _ _ _ hq]
          exact hq
      | cons cb rest =>
          have hstep := contMeasure_runCb ph cb { s with contQ := rest }
          have hM : contMeasure s.contQ = cbSize cb + contMeasure rest := by
            rw [hq]
            simp [contMeasure]
          have hle : contMeasure (runCb ph { s with contQ := rest } cb).contQ ≤ m := by
            have hone := one_le_cbSize cb
            simp only [show ({ s with contQ := rest } : EL).contQ = rest from rfl] at hstep
            omega
          have hrec := ih ph (runCb ph { s with contQ := rest } cb) hle
          simp only [drainFuel, hq]
          exact hrec

/-- The drain leaves the continuation queue empty. -/
lemma drain_contQ_empty (ph : Phase) (s : EL) : (drain ph s).contQ = [] :=
  drainFuel_contQ_empty _ ph s le_rfl

/-- Any sufficient fuel gives the same drain result. -/
lemma drainFuel_congr : ∀ (n m : Nat) (ph : Phase) (s : EL),
    contMeasure s.contQ ≤ n → contMeasure s.contQ ≤ m →
    drainFuel n ph s = drainFuel m ph s := by
  intro n
  induction n with
  | zero =>
      intro m ph s hn _
      have hq : s.contQ = [] := contMeasure_eq_zero _ (Nat.le_zero.mp hn)
      rw [drainFuel_nilQ _ _ _ hq, drainFuel_nilQ _ _ _ hq]
  | succ k ih =>
      intro m ph s hn hm
      cases hq : s.contQ with
      | nil => rw [drainFuel_nilQ _ _ _ hq, drainFuel_nilQ _ _ _ hq]
      | cons cb rest =>
          have hM : contMeasure s.contQ = cbSize cb + contMeasure rest := by
            rw [hq]
            simp [contMeasure]
          have hone := one_le_cbSize cb
          cases m with
          | zero => omega
          | succ j =>
              simp only [drainFuel, hq]
              have hstep := contMeasure_runCb ph cb { s with contQ := rest }
              simp only [show ({ s with contQ := rest } : EL).contQ = rest from rfl] at hstep
              exact ih j ph _ (by omega) (by omega)

/-- The drain runs the front continuation first: FIFO. -/
lemma drain_step (ph : Phase) (s : EL) (cb : Cb) (rest : List Cb)
    (h : s.contQ = cb :: rest) :
    drain ph s = drain ph (runCb ph { s with contQ := rest } cb) := by
  unfold drain
  have hM : contMeasure s.contQ = cbSize cb + contMeasure rest := by
    rw [h]
    simp [contMeasure]
  have hone := one_le_cbSize cb
  obtain ⟨k, hk⟩ : ∃ k, contMeasure s.contQ = k + 1 :=
    ⟨cbSize cb + contMeasure rest - 1, by omega⟩
  rw [hk]
  simp only [drainFuel, h]
  have hstep := contMeasure_runCb ph cb { s with contQ := rest }
  simp only [show ({ s with contQ := rest } : EL).contQ = rest from rfl] at hstep
  exact drainFuel_congr k _ ph _ (by omega) le_rfl

/-- The trace extension relation is reflexive. -/
lemma tracePh_refl (ph : Phase) (s : EL) : tracePh ph s s :=
  ⟨[], by simp, by simp⟩

/-- The trace extension relation is transitive for one phase. -/
lemma tracePh_trans {ph : Phase} {s₁ s₂ s₃ : EL}
    (h₁ : tracePh ph s₁ s₂) (h₂ : tracePh ph s₂ s₃) : tracePh ph s₁ s₃ := by
  obtain ⟨evs₁, he₁, hp₁⟩ := h₁
  obtain ⟨evs₂, he₂, hp₂⟩ := h₂
  refine ⟨evs₁ ++ evs₂, by rw [he₂, he₁, List.append_assoc], ?_⟩
  intro e he
  rcases List.mem_append.mp he with h | h
  · exact hp₁ e h
  · exact hp₂ e h

/-- Two states with equal traces extend each other trivially. -/
lemma tracePh_of_trace_eq {ph : Phase} {s₁ s₂ : EL}
    (h : s₂.trace = s₁.trace) : tracePh ph s₁ s₂ :=
  ⟨[], by simp [h], by simp⟩

/-- One effect appends only events of the running phase. -/
lemma tracePh_runAction (ph : Phase) (s : EL) (a : Action) :
    tracePh ph s (runAction ph s a) := by
  cases a with
  | emit t =>
      exact ⟨[⟨ph, t⟩], rfl, by intro e he; simp at he; simp [he]⟩
  | contA cb => exact tracePh_of_trace_eq rfl
  | phaseA p cb =>
      exact tracePh_of_trace_eq (setQueue_trace _ _ _)
  | timerA d i cb => exact tracePh_of_trace_eq rfl
  | cancelA t => exact tracePh_of_trace_eq rfl

/-- Folding a trace-extending step extends the trace. -/
lemma tracePh_foldl {α : Type} (ph : Phase) (f : EL → α → EL)
    (hf : ∀ s a, tracePh ph s (f s a)) :
    ∀ (l : List α) (s : EL), tracePh ph s (List.foldl f s l) := by
  intro l
  induction l with
  | nil => intro s; exact tracePh_refl ph s
  | cons a rest ih =>
      intro s
      exact tracePh_trans (hf s a) (ih (f s a))

/-- A callback appends only events of the running phase. -/
lemma tracePh_runCb (ph : Phase) (s : EL) (cb : Cb) :
    tracePh ph s (runCb ph s cb) :=
  tracePh_foldl ph (runAction ph) (tracePh_runAction ph) cb s

/-- The drain appends only events of the running phase. -/
lemma tracePh_drainFuel (n : Nat) (ph : Phase) :
    ∀ s : EL, tracePh ph s (drainFuel n ph s) := by
  induction n with
  | zero => intro s; exact tracePh_refl ph s
  | succ m ih =>
      intro s
      cases hq : s.contQ with
      | nil =>
          rw [drainFuel_nilQ _ _ _ hq]
          exact tracePh_refl ph s
      | cons cb rest =>
          simp only [drainFuel, hq]
          refine tracePh_trans (tracePh_trans
            (tracePh_of_trace_eq (show ({ s with contQ := rest } : EL).trace = s.trace from rfl))
            (tracePh_runCb ph _ cb)) (ih _)

/-- Running one entry appends only events of the running phase. -/
lemma tracePh_runEntry (ph : Phase) (s : EL) (e : Entry) :
    tracePh ph s (runEntry ph s e) := by
  cases hg : e.guardId with
  | none =>
      simp only [runEntry, hg]
      exact tracePh_trans (tracePh_runCb ph s e.cb) (tracePh_drainFuel _ ph _)
  | some tid =>
      simp only [runEntry, hg]
      by_cases hc : tid ∈ s.cancelledIds
      · simp only [if_pos hc]
        exact tracePh_refl ph s
      · simp only [if_neg hc]
        refine tracePh_trans (tracePh_trans
          (tracePh_of_trace_eq
            (show ({ s with fired := s.fired ++ [tid] } : EL).trace = s.trace from rfl))
          (tracePh_runCb ph _ e.cb)) (tracePh_drainFuel _ ph _)

/-- Running a whole phase appends only events of that phase. -/
lemma tracePh_runPhase (ph : Phase) (s : EL) :
    tracePh ph s (runPhase ph s) := by
  unfold runPhase runEntries
  exact tracePh_trans (tracePh_of_trace_eq (setQueue_trace _ _ _))
    (tracePh_foldl ph (runEntry ph) (tracePh_runEntry ph) _ _)

/-- Promoting timers does not touch the trace. -/
lemma promoteTimers_trace (s : EL) : (promoteTimers s).trace = s.trace := rfl

/-- Advancing the pool does not touch the trace. -/
lemma tickPool_trace (s : EL) : (tickPool s).trace = s.trace := rfl

/-- One tick appends five blocks of events, one per phase in rotation
order. -/
lemma tick_trace_blocks (s : EL) : ∃ e₁ e₂ e₃ e₄ e₅,
    (tick s).trace = s.trace ++ e₁ ++ e₂ ++ e₃ ++ e₄ ++ e₅ ∧
    (∀ e ∈ e₁, e.phase = Phase.timers) ∧ (∀ e ∈ e₂, e.phase = Phase.pending) ∧
    (∀ e ∈ e₃, e.phase = Phase.poll) ∧ (∀ e ∈ e₄, e.phase = Phase.check) ∧
    (∀ e ∈ e₅, e.phase = Phase.close) := by
  obtain ⟨e₁, h₁, p₁⟩ := tracePh_runPhase .timers (promoteTimers s)
  obtain ⟨e₂, h₂, p₂⟩ := tracePh_runPhase .pending (runPhase .timers (promoteTimers s))
  obtain ⟨e₃, h₃, p₃⟩ :=
    tracePh_runPhase .poll (runPhase .pending (runPhase .timers (promoteTimers s)))
  obtain ⟨e₄, h₄, p₄⟩ := tracePh_runPhase .check
    (runPhase .poll (runPhase .pending (runPhase .timers (promoteTimers s))))
  obtain ⟨e₅, h₅, p₅⟩ := tracePh_runPhase .close
    (runPhase .check (runPhase .poll (runPhase .pending (runPhase .timers (promoteTimers s)))))
  refine ⟨e₁, e₂, e₃, e₄, e₅, ?_, p₁, p₂, p₃, p₄, p₅⟩
  have htick : (tick s).trace =
      (runPhase .close (runPhase .check (runPhase .poll (runPhase .pending
        (runPhase .timers (promoteTimers s)))))).trace := rfl
  rw [htick, h₅, h₄, h₃, h₂, h₁, promoteTimers_trace]

/-- A trace with no Check event before a suffix with no Timers event has no
Timers event after a Check event. -/
lemma noTimersAfterCheck_of_no_timers (ys : List Event)
    (h : ∀ e ∈ ys, e.phase ≠ Phase.timers) : noTimersAfterCheck ys = true := by
  induction ys with
  | nil => rfl
  | cons e rest ih =>
      simp only [noTimersAfterCheck, Bool.and_eq_true]
      refine ⟨?_, ih (fun x hx => h x (List.mem_cons_of_mem _ hx))⟩
      by_cases hc : e.phase == Phase.check
      · simp only [hc, if_true, List.all_eq_true]
        intro x hx
        have := h x (List.mem_cons_of_mem _ hx)
        simp [this]
      · simp [hc]

/-- Splitting lemma: no Check event in the prefix and no Timers event in the
suffix give a trace with no Timers event after a Check event. -/
lemma noTimersAfterCheck_split (xs ys : List Event)
    (hxs : ∀ e ∈ xs, e.phase ≠ Phase.check)
    (hys : ∀ e ∈ ys, e.phase ≠ Phase.timers) :
    noTimersAfterCheck (xs ++ ys) = true := by
  induction xs with
  | nil => simpa using noTimersAfterCheck_of_no_timers ys hys
  | cons x xs ih =>
      simp only [List.cons_append, noTimersAfterCheck, Bool.and_eq_true]
      constructor
      · have hx : x.phase ≠ Phase.check := hxs x (List.mem_cons_self _ _)
        have : (x.phase == Phase.check) = false := by
          simpa using hx
        simp [this]
      · exact ih (fun e he => hxs e (List.mem_cons_of_mem _ he))

/-- Claim C8: submit rejects with PoolSaturated exactly when the jobQueue
length exceeds the configured maxQueueDepth bound at submission time;
otherwise the job is appended to the FIFO queue, and with the default
configuration (maxQueueDepth unbounded) submit never rejects. -/
theorem claim_C8_submit_backpressure (s : PoolState) (j : Job) :
    (submitRejected (submit s j) = true ↔
      ∃ bound, s.maxQueueDepth = some bound ∧ bound < s.queue.length) ∧
    (∀ s₂, submit s j = .ok s₂ → s₂.queue = s.queue ++ [j]) ∧
    (s.maxQueueDepth = none → submitRejected (submit s j) = false) := by
  refine ⟨?_, ?_, ?_⟩
  · constructor
    · intro hrej
      cases hmd : s.maxQueueDepth with
      | none => simp [submit, hmd, submitRejected] at hrej
      | some bound =>
          refine ⟨bound, rfl, ?_⟩
          by_contra hlt
          simp [submit, hmd, submitRejected, hlt] at hrej
    · rintro ⟨bound, hmd, hlt⟩
      simp [submit, hmd, submitRejected, hlt]
  · intro s₂ hok
    cases hmd : s.maxQueueDepth with
    | none =>
        simp only [submit, hmd] at hok
        cases hok
        rfl
    | some bound =>
        simp only [submit, hmd] at hok
        by_cases hlt : bound < s.queue.length
        · simp [hlt] at hok
        · simp only [if_neg hlt] at hok
          cases hok
          rfl
  · intro hmd
    simp [submit, hmd, submitRejected]

/-- Claim C8 witness: a pool with bound 1 and a queue of length 2 rejects,
and the default pool accepts, appending FIFO. -/
theorem claim_C8_witness :
    (∃ bound, saturatedPool.maxQueueDepth = some bound ∧
        bound < saturatedPool.queue.length) ∧
    submitRejected (submit defaultPool (mkJob 7)) = false := by
  constructor
  · exact (claim_C8_submit_backpressure saturatedPool (mkJob 7)).1.mp
      (by simp [submit, submitRejected, saturatedPool, defaultPool, mkJob])
  · exact (claim_C8_submit_backpressure defaultPool (mkJob 7)).2.2 rfl

/-- Claim C4: memory mutated inside a Worker Context is never visible to the
owner except through an explicit send of a copied message: two runs whose
context memories differ only on cells never sent produce identical owner
observations, and a mutation after the sends never alters the already
copied messages. -/
theorem claim_C4_context_isolation (handler : Nat → Nat)
    (prog : List CtxInstr) (mem₁ mem₂ : Nat → Nat)
    (hinternal : ∀ a ∈ sentAddrs prog, mem₁ a = mem₂ a) (a v : Nat) :
    spawnAndObserve handler prog mem₁ = spawnAndObserve handler prog mem₂ ∧
    spawnAndObserve handler (prog ++ [CtxInstr.mutate a v]) mem₁ =
      spawnAndObserve handler prog mem₁ := by
  constructor
  · unfold spawnAndObserve ownerRun
    rw [ctxRun_msgs_congr prog mem₁ mem₂ hinternal]
  · unfold spawnAndObserve ownerRun
    rw [ctxRun_msgs_copy prog a v mem₁]

/-- Claim C2: in every tick the scheduler visits the phase queues in the
fixed order Timers, Pending-Completion, Poll, Check, Close: the events of
one tick decompose into five blocks in that phase order, and consequently
no Timers-phase callback event occurs after a Check-phase event of the
same tick rotation. -/
theorem claim_C2_phase_order (s : EL) :
    (∃ e₁ e₂ e₃ e₄ e₅,
        (tick s).trace = s.trace ++ e₁ ++ e₂ ++ e₃ ++ e₄ ++ e₅ ∧
        (∀ e ∈ e₁, e.phase = Phase.timers) ∧ (∀ e ∈ e₂, e.phase = Phase.pending) ∧
        (∀ e ∈ e₃, e.phase = Phase.poll) ∧ (∀ e ∈ e₄, e.phase = Phase.check) ∧
        (∀ e ∈ e₅, e.phase = Phase.close)) ∧
    noTimersAfterCheck (newEvents s (tick s)) = true := by
  obtain ⟨e₁, e₂, e₃, e₄, e₅, htr, p₁, p₂, p₃, p₄, p₅⟩ := tick_trace_blocks s
  refine ⟨⟨e₁, e₂, e₃, e₄, e₅, htr, p₁, p₂, p₃, p₄, p₅⟩, ?_⟩
  have hassoc : (tick s).trace = s.trace ++ ((e₁ ++ e₂ ++ e₃) ++ (e₄ ++ e₅)) := by
    rw [htr]
    simp [List.append_assoc]
  unfold newEvents
  rw [hassoc, List.drop_left]
  apply noTimersAfterCheck_split
  · intro e he
    rcases List.mem_append.mp he with h | h
    · rcases List.mem_append.mp h with h | h
      · rw [p₁ e h]; simp
      · rw [p₂ e h]; simp
    · rw [p₃ e h]; simp
  · intro e he
    rcases List.mem_append.mp he with h | h
    · rw [p₄ e h]; simp
    · rw [p₅ e h]; simp

/-- Running one entry from an empty continuation queue ends with an empty
continuation queue. -/
lemma runEntry_contQ_empty (ph : Phase) (s : EL) (e : Entry)
    (h : s.contQ = []) : (runEntry ph s e).contQ = [] := by
  cases hg : e.guardId with
  | none =>
      simp only [runEntry, hg]
      exact drain_contQ_empty _ _
  | some tid =>
      simp only [runEntry, hg]
      by_cases hc : tid ∈ s.cancelledIds
      · simp [if_pos hc, h]
      · simp only [if_neg hc]
        exact drain_contQ_empty _ _

/-- Running a list of entries keeps the continuation queue empty. -/
lemma runEntries_contQ_empty (ph : Phase) (es : List Entry) :
    ∀ s : EL, s.contQ = [] → (runEntries ph s es).contQ = [] := by
  induction es with
  | nil => intro s h; exact h
  | cons e rest ih =>
      intro s h
      simp only [runEntries, List.foldl_cons]
      exact ih _ (runEntry_contQ_empty ph s e h)

/-- Running a whole phase keeps the continuation queue empty. -/
lemma runPhase_contQ_empty (ph : Phase) (s : EL) (h : s.contQ = []) :
    (runPhase ph s).contQ = [] := by
  unfold runPhase
  exact runEntries_contQ_empty ph _ _ ((setQueue_contQ s ph []).trans h)

/-- Promoting timers does not touch the continuation queue. -/
lemma promoteTimers_contQ (s : EL) : (promoteTimers s).contQ = s.contQ := rfl

/-- Advancing the pool does not touch the continuation queue. -/
lemma tickPool_contQ (s : EL) : (tickPool s).contQ = s.contQ := rfl

/-- Claim C3: the Continuation Queue drains FIFO to exhaustion after every
single phase callback and before the next one runs: an entry executed from
an empty continuation queue leaves it empty again; the drain pops the front
continuation first; the drain always empties the queue (including
continuations enqueued during the drain); and along a tick started with an
empty continuation queue, the queue is empty at every phase selection point
and at the end of the tick. -/
theorem claim_C3_continuation_drain :
    (∀ (ph : Phase) (s : EL) (e : Entry), s.contQ = [] →
        (runEntry ph s e).contQ = []) ∧
    (∀ (ph : Phase) (s : EL) (cb : Cb) (rest : List Cb), s.contQ = cb :: rest →
        drain ph s = drain ph (runCb ph { s with contQ := rest } cb)) ∧
    (∀ (ph : Phase) (s : EL), (drain ph s).contQ = []) ∧
    (∀ s : EL, s.contQ = [] →
        ((runPhase .timers (promoteTimers s)).contQ = [] ∧
         (runPhase .pending (runPhase .timers (promoteTimers s))).contQ = [] ∧
         (runPhase .poll (runPhase .pending
            (runPhase .timers (promoteTimers s)))).contQ = [] ∧
         (runPhase .check (runPhase .poll (runPhase .pending
            (runPhase .timers (promoteTimers s))))).contQ = [] ∧
         (runPhase .close (runPhase .check (runPhase .poll (runPhase .pending
            (runPhase .timers (promoteTimers s)))))).contQ = [] ∧
         (tick s).contQ = [])) := by
  refine ⟨runEntry_contQ_empty, drain_step, drain_contQ_empty, ?_⟩
  intro s h
  have h₀ : (promoteTimers s).contQ = [] := (promoteTimers_contQ s).trans h
  have h₁ := runPhase_contQ_empty .timers _ h₀
  have h₂ := runPhase_contQ_empty .pending _ h₁
  have h₃ := runPhase_contQ_empty .poll _ h₂
  have h₄ := runPhase_contQ_empty .check _ h₃
  have h₅ := runPhase_contQ_empty .close _ h₄
  have h₆ : (tick s).contQ = [] := by
    have : (tick s).contQ =
        (runPhase .close (runPhase .check (runPhase .poll (runPhase .pending
          (runPhase .timers (promoteTimers s)))))).contQ := rfl
    rw [this]
    exact h₅
  exact ⟨h₁, h₂, h₃, h₄, h₅, h₆⟩

/-- Claim C3 witness: the drain invariants applied to a concrete state with
one pending entry. -/
theorem claim_C3_witness :
    busyEL.contQ = [] ∧ (tick busyEL).contQ = [] ∧
    (runEntry Phase.pending busyEL ⟨none, []⟩).contQ = [] :=
  ⟨rfl, (claim_C3_continuation_drain.2.2.2 busyEL rfl).2.2.2.2.2,
   claim_C3_continuation_drain.1 Phase.pending busyEL ⟨none, []⟩ rfl⟩

/-- One effect preserves a cancelled, unfired timer id: the cancelled list
only grows and no effect touches the fired log. -/
lemma cancelSafe_runAction {tid : Nat} (ph : Phase) (s : EL) (a : Action)
    (h : cancelSafe tid s) : cancelSafe tid (runAction ph s a) := by
  obtain ⟨hc, hf⟩ := h
  cases a with
  | emit t => exact ⟨hc, hf⟩
  | contA cb => exact ⟨hc, hf⟩
  | phaseA p cb =>
      constructor
      · rw [show (runAction ph s (.phaseA p cb)).cancelledIds =
            s.cancelledIds from setQueue_cancelledIds _ _ _]
        exact hc
      · rw [show (runAction ph s (.phaseA p cb)).fired = s.fired from
            setQueue_fired _ _ _]
        exact hf
  | timerA d i cb => exact ⟨hc, hf⟩
  | cancelA t => exact ⟨List.mem_append_left _ hc, hf⟩

/-- A callback preserves a cancelled, unfired timer id. -/
lemma cancelSafe_runCb {tid : Nat} (ph : Phase) (cb : Cb) :
    ∀ s : EL, cancelSafe tid s → cancelSafe tid (runCb ph s cb) := by
  induction cb with
  | nil => intro s h; exact h
  | cons a rest ih =>
      intro s h
      simp only [runCb, List.foldl_cons]
      exact ih _ (cancelSafe_runAction ph s a h)

/-- The drain preserves a cancelled, unfired timer id. -/
lemma cancelSafe_drainFuel {tid : Nat} (n : Nat) (ph : Phase) :
    ∀ s : EL, cancelSafe tid s → cancelSafe tid (drainFuel n ph s) := by
  induction n with
  | zero => intro s h; exact h
  | succ m ih =>
      intro s h
      cases hq : s.contQ with
      | nil => rw [drainFuel_nilQ _ _ _ hq]; exact h
      | cons cb rest =>
          simp only [drainFuel, hq]
          exact ih _ (cancelSafe_runCb ph cb _ h)

/-- Running one entry preserves a cancelled, unfired timer id: the fired
log gains only ids that were not cancelled at fire time. -/
lemma cancelSafe_runEntry {tid : Nat} (ph : Phase) (s : EL) (e : Entry)
    (h : cancelSafe tid s) : cancelSafe tid (runEntry ph s e) := by
  obtain ⟨hc, hf⟩ := h
  cases hg : e.guardId with
  | none =>
      simp only [runEntry, hg]
      exact cancelSafe_drainFuel _ ph _ (cancelSafe_runCb ph e.cb s ⟨hc, hf⟩)
  | some t =>
      simp only [runEntry, hg]
      by_cases hcc : t ∈ s.cancelledIds
      · simp only [if_pos hcc]
        exact ⟨hc, hf⟩
      · simp only [if_neg hcc]
        have hne : tid ≠ t := fun heq => hcc (heq ▸ hc)
        have hstart : cancelSafe tid { s with fired := s.fired ++ [t] } := by
          refine ⟨hc, ?_⟩
          intro hmem
          rcases List.mem_append.mp hmem with hmem | hmem
          · exact hf hmem
          · simp at hmem
            exact hne hmem
        exact cancelSafe_drainFuel _ ph _ (cancelSafe_runCb ph e.cb _ hstart)

/-- Running a list of entries preserves a cancelled, unfired timer id. -/
lemma cancelSafe_runEntries {tid : Nat} (ph : Phase) (es : List Entry) :
    ∀ s : EL, cancelSafe tid s → cancelSafe tid (runEntries ph s es) := by
  induction es with
  | nil => intro s h; exact h
  | cons e rest ih =>
      intro s h
      simp only [runEntries, List.foldl_cons]
      exact ih _ (cancelSafe_runEntry ph s e h)

/-- Running a phase preserves a cancelled, unfired timer id. -/
lemma cancelSafe_runPhase {tid : Nat} (ph : Phase) (s : EL)
    (h : cancelSafe tid s) : cancelSafe tid (runPhase ph s) := by
  unfold runPhase
  apply cancelSafe_runEntries
  exact ⟨(setQueue_cancelledIds s ph []).symm ▸ h.1,
         (setQueue_fired s ph []).symm ▸ h.2⟩

/-- Promoting timers preserves a cancelled, unfired timer id: a cancelled
timer is destroyed, never moved to the Timers queue. -/
lemma cancelSafe_promoteTimers {tid : Nat} (s : EL)
    (h : cancelSafe tid s) : cancelSafe tid (promoteTimers s) := h

/-- Advancing the pool preserves a cancelled, unfired timer id. -/
lemma cancelSafe_tickPool {tid : Nat} (s : EL)
    (h : cancelSafe tid s) : cancelSafe tid (tickPool s) := h

/-- A whole tick preserves a cancelled, unfired timer id. -/
lemma cancelSafe_tick {tid : Nat} (s : EL)
    (h : cancelSafe tid s) : cancelSafe tid (tick s) := by
  have h₅ := cancelSafe_runPhase .close
    (runPhase .check (runPhase .poll (runPhase .pending
      (runPhase .timers (promoteTimers s)))))
    (cancelSafe_runPhase .check _ (cancelSafe_runPhase .poll _
      (cancelSafe_runPhase .pending _ (cancelSafe_runPhase .timers _
        (cancelSafe_promoteTimers s h)))))
  exact cancelSafe_tickPool _ h₅

/-- Claim C5: if a timer id is cancelled before its callback has executed
(including when its deadline has already elapsed), its callback never fires
in any subsequent state: after any number of ticks, the id is still absent
from the fired log and still marked cancelled. -/
theorem claim_C5_cancel_prevents_fire (s : EL) (tid n : Nat)
    (hc : tid ∈ s.cancelledIds) (hf : tid ∉ s.fired) :
    tid ∉ (tickN n s).fired ∧ tid ∈ (tickN n s).cancelledIds := by
  have main : ∀ (k : Nat) (s₀ : EL), cancelSafe tid s₀ →
      cancelSafe tid (tickN k s₀) := by
    intro k
    induction k with
    | zero => intro s₀ h; exact h
    | succ m ih =>
        intro s₀ h
        simp only [tickN]
        exact ih _ (cancelSafe_tick s₀ h)
  have := main n s ⟨hc, hf⟩
  exact ⟨this.2, this.1⟩

/-- Claim C5 witness: a timer whose deadline (0) elapsed at time 5 and
whose id (0) was cancelled before firing never fires across three ticks. -/
theorem claim_C5_witness :
    0 ∈ cancelRaceEL.cancelledIds ∧ 0 ∉ cancelRaceEL.fired ∧
    0 ∉ (tickN 3 cancelRaceEL).fired :=
  ⟨by decide, by decide,
   (claim_C5_cancel_prevents_fire cancelRaceEL 0 3 (by decide) (by decide)).1⟩

/-- Whenever the loop stops, no work remains in the stopping state. -/
lemma run_done : ∀ (fuel : Nat) (s s₂ : EL),
    run fuel s = some s₂ → loopDone s₂ = true := by
  intro fuel
  induction fuel with
  | zero => intro s s₂ h; simp [run] at h
  | succ m ih =>
      intro s s₂ h
      by_cases hd : loopDone s = true
      · simp only [run, hd, if_true, Option.some.injEq] at h
        rw [h] at hd
        exact hd
      · simp only [run, hd, if_false, Bool.false_eq_true] at h
        exact ih _ _ h

/-- Claim C7: the Scheduler Loop run() terminates exactly when all phase
queues, the Continuation Queue, the Timer Registry, the Worker Pool
in-flight and queued jobs, and every live Worker Context are empty or
closed: a state the loop stops in satisfies loopDone; a done state stops
immediately; and while work remains the loop continues ticking. -/
theorem claim_C7_run_termination (fuel : Nat) (s s₂ : EL) :
    (run fuel s = some s₂ → loopDone s₂ = true) ∧
    (loopDone s = true → run (fuel + 1) s = some s) ∧
    (loopDone s = false → run (fuel + 1) s = run fuel (tick s)) := by
  refine ⟨run_done fuel s s₂, ?_, ?_⟩
  · intro h
    simp [run, h]
  · intro h
    simp [run, h]

/-- Claim C7 witness: the empty scheduler stops at once; a scheduler with a
pending entry keeps ticking. -/
theorem claim_C7_witness :
    loopDone emptyEL = true ∧ run 1 emptyEL = some emptyEL ∧
    loopDone busyEL = false ∧ run 1 busyEL = run 0 (tick busyEL) :=
  ⟨by decide, (claim_C7_run_termination 0 emptyEL emptyEL).2.1 (by decide),
   by decide, (claim_C7_run_termination 0 busyEL busyEL).2.2 (by decide)⟩

/-- Enqueueing either leaves a queue unchanged or appends the entry. -/
lemma queueOf_enqueue (σ : EL) (p₂ : Phase) (en : Entry) (p : Phase) :
    (enqueueEntry σ p₂ en).queueOf p = σ.queueOf p ∨
    (enqueueEntry σ p₂ en).queueOf p = σ.queueOf p ++ [en] := by
  cases p₂ <;> cases p <;> first | exact Or.inl rfl | exact Or.inr rfl

/-- One effect never removes an entry from a phase queue. -/
lemma queue_mem_runAction (p ph : Phase) (σ : EL) (a : Action) {e : Entry}
    (h : e ∈ σ.queueOf p) : e ∈ (runAction ph σ a).queueOf p := by
  cases a with
  | emit t => cases p <;> exact h
  | contA cb => cases p <;> exact h
  | phaseA p₂ cb =>
      rcases queueOf_enqueue σ p₂ ⟨none, cb⟩ p with hq | hq
      · rw [show runAction ph σ (.phaseA p₂ cb) = enqueueEntry σ p₂ ⟨none, cb⟩
          from rfl, hq]
        exact h
      · rw [show runAction ph σ (.phaseA p₂ cb) = enqueueEntry σ p₂ ⟨none, cb⟩
          from rfl, hq]
        exact List.mem_append_left _ h
  | timerA d i cb => cases p <;> exact h
  | cancelA t => cases p <;> exact h

/-- A callback never removes an entry from a phase queue. -/
lemma queue_mem_runCb (p ph : Phase) (cb : Cb) :
    ∀ (σ : EL) {e : Entry}, e ∈ σ.queueOf p → e ∈ (runCb ph σ cb).queueOf p := by
  induction cb with
  | nil => intro σ e h; exact h
  | cons a rest ih =>
      intro σ e h
      simp only [runCb, List.foldl_cons]
      exact ih _ (queue_mem_runAction p ph σ a h)

/-- The drain never removes an entry from a phase queue. -/
lemma queue_mem_drainFuel (p : Phase) (n : Nat) (ph : Phase) :
    ∀ (σ : EL) {e : Entry}, e ∈ σ.queueOf p →
      e ∈ (drainFuel n ph σ).queueOf p := by
  induction n with
  | zero => intro σ e h; exact h
  | succ m ih =>
      intro σ e h
      cases hq : σ.contQ with
      | nil => rw [drainFuel_nilQ _ _ _ hq]; exact h
      | cons cb rest =>
          simp only [drainFuel, hq]
          have h₂ : e ∈ ({ σ with contQ := rest } : EL).queueOf p := by
            cases p <;> exact h
          exact ih _ (queue_mem_runCb p ph cb _ h₂)

/-- Running an entry never removes another entry from a phase queue. -/
lemma queue_mem_runEntry (p ph : Phase) (σ : EL) (ent : Entry) {e : Entry}
    (h : e ∈ σ.queueOf p) : e ∈ (runEntry ph σ ent).queueOf p := by
  cases hg : ent.guardId with
  | none =>
      simp only [runEntry, hg]
      exact queue_mem_drainFuel p _ ph _ (queue_mem_runCb p ph ent.cb σ h)
  | some tid =>
      simp only [runEntry, hg]
      by_cases hc : tid ∈ σ.cancelledIds
      · simp only [if_pos hc]
        exact h
      · simp only [if_neg hc]
        have h₂ : e ∈ ({ σ with fired := σ.fired ++ [tid] } : EL).queueOf p := by
          cases p <;> exact h
        exact queue_mem_drainFuel p _ ph _ (queue_mem_runCb p ph ent.cb _ h₂)

/-- Running a list of entries never removes an entry from a phase queue. -/
lemma queue_mem_runEntries (p ph : Phase) (es : List Entry) :
    ∀ (σ : EL) {e : Entry}, e ∈ σ.queueOf p →
      e ∈ (runEntries ph σ es).queueOf p := by
  induction es with
  | nil => intro σ e h; exact h
  | cons en rest ih =>
      intro σ e h
      simp only [runEntries, List.foldl_cons]
      exact ih _ (queue_mem_runEntry p ph σ en h)

/-- Running a different phase never removes an entry from this queue. -/
lemma queue_mem_runPhase (p ph : Phase) (hne : ph ≠ p) (σ : EL) {e : Entry}
    (h : e ∈ σ.queueOf p) : e ∈ (runPhase ph σ).queueOf p := by
  unfold runPhase
  apply queue_mem_runEntries
  cases ph <;> cases p <;> first | exact absurd rfl hne | exact h

/-- Promoting timers leaves the Poll queue unchanged. -/
lemma promoteTimers_pollQ (σ : EL) : (promoteTimers σ).pollQ = σ.pollQ := rfl

/-- An element of a deadline insertion comes from the inserted timer or the
list. -/
lemma mem_insertByDeadline {x t : Timer} :
    ∀ {l : List Timer}, x ∈ insertByDeadline t l → x = t ∨ x ∈ l := by
  intro l
  induction l with
  | nil =>
      intro h
      simp [insertByDeadline] at h
      exact Or.inl h
  | cons u rest ih =>
      intro h
      by_cases hd : u.deadline ≤ t.deadline
      · rw [insertByDeadline, if_pos hd] at h
        rcases List.mem_cons.mp h with h | h
        · exact Or.inr (h ▸ List.mem_cons_self u rest)
        · rcases ih h with h | h
          · exact Or.inl h
          · exact Or.inr (List.mem_cons_of_mem _ h)
      · rw [insertByDeadline, if_neg hd] at h
        rcases List.mem_cons.mp h with h | h
        · exact Or.inl h
        · exact Or.inr h

/-- The deadline sort permutes, never invents, timers. -/
lemma mem_sortByDeadline {x : Timer} {l : List Timer}
    (h : x ∈ sortByDeadline l) : x ∈ l := by
  suffices haux : ∀ (l : List Timer) (acc : List Timer),
      x ∈ l.foldl (fun acc t => insertByDeadline t acc) acc →
      x ∈ acc ∨ x ∈ l by
    rcases haux l [] h with h0 | h0
    · simp at h0
    · exact h0
  intro l
  induction l with
  | nil => intro acc h0; exact Or.inl h0
  | cons t rest ih =>
      intro acc h0
      simp only [List.foldl_cons] at h0
      rcases ih _ h0 with h1 | h1
      · rcases mem_insertByDeadline h1 with h2 | h2
        · exact Or.inr (h2 ▸ List.mem_cons_self t rest)
        · exact Or.inl h2
      · exact Or.inr (List.mem_cons_of_mem _ h1)

/-- Appending an unguarded entry keeps the guard bound. -/
lemma guardsBelow_append_none {b : Nat} {q : List Entry} (cb : Cb)
    (h : guardsBelow b q) : guardsBelow b (q ++ [⟨none, cb⟩]) := by
  intro e he tid hg
  rcases List.mem_append.mp he with hm | hm
  · exact h e hm tid hg
  · simp at hm
    rw [hm] at hg
    simp at hg

/-- One effect preserves the mid-tick id-safety invariant. -/
lemma tickSafe_runAction {b : Nat} {base : List Nat} (ph : Phase) (σ : EL)
    (a : Action) (h : tickSafe b base σ) :
    tickSafe b base (runAction ph σ a) := by
  obtain ⟨h₁, h₂, h₃, h₄, h₅, hf⟩ := h
  cases a with
  | emit t => exact ⟨h₁, h₂, h₃, h₄, h₅, hf⟩
  | contA cb => exact ⟨h₁, h₂, h₃, h₄, h₅, hf⟩
  | phaseA p cb =>
      cases p with
      | timers => exact ⟨guardsBelow_append_none cb h₁, h₂, h₃, h₄, h₅, hf⟩
      | pending => exact ⟨h₁, guardsBelow_append_none cb h₂, h₃, h₄, h₅, hf⟩
      | poll => exact ⟨h₁, h₂, guardsBelow_append_none cb h₃, h₄, h₅, hf⟩
      | check => exact ⟨h₁, h₂, h₃, guardsBelow_append_none cb h₄, h₅, hf⟩
      | close => exact ⟨h₁, h₂, h₃, h₄, guardsBelow_append_none cb h₅, hf⟩
  | timerA d i cb => exact ⟨h₁, h₂, h₃, h₄, h₅, hf⟩
  | cancelA t => exact ⟨h₁, h₂, h₃, h₄, h₅, hf⟩

/-- A callback preserves the mid-tick id-safety invariant. -/
lemma tickSafe_runCb {b : Nat} {base : List Nat} (ph : Phase) (cb : Cb) :
    ∀ σ : EL, tickSafe b base σ → tickSafe b base (runCb ph σ cb) := by
  induction cb with
  | nil => intro σ h; exact h
  | cons a rest ih =>
      intro σ h
      simp only [runCb, List.foldl_cons]
      exact ih _ (tickSafe_runAction ph σ a h)

/-- The drain preserves the mid-tick id-safety invariant. -/
lemma tickSafe_drainFuel {b : Nat} {base : List Nat} (n : Nat) (ph : Phase) :
    ∀ σ : EL, tickSafe b base σ → tickSafe b base (drainFuel n ph σ) := by
  induction n with
  | zero => intro σ h; exact h
  | succ m ih =>
      intro σ h
      cases hq : σ.contQ with
      | nil => rw [drainFuel_nilQ _ _ _ hq]; exact h
      | cons cb rest =>
          simp only [drainFuel, hq]
          exact ih _ (tickSafe_runCb ph cb _ h)

/-- Running an entry with a bounded guard preserves the invariant: the
fired log gains only ids below the bound. -/
lemma tickSafe_runEntry {b : Nat} {base : List Nat} (ph : Phase) (σ : EL)
    (e : Entry) (he : ∀ tid, e.guardId = some tid → tid < b)
    (h : tickSafe b base σ) : tickSafe b base (runEntry ph σ e) := by
  cases hg : e.guardId with
  | none =>
      simp only [runEntry, hg]
      exact tickSafe_drainFuel _ ph _ (tickSafe_runCb ph e.cb σ h)
  | some t =>
      simp only [runEntry, hg]
      by_cases hc : t ∈ σ.cancelledIds
      · simp only [if_pos hc]
        exact h
      · simp only [if_neg hc]
        have ht : t < b := he t hg
        obtain ⟨h₁, h₂, h₃, h₄, h₅, hf⟩ := h
        have hstart : tickSafe b base { σ with fired := σ.fired ++ [t] } := by
          refine ⟨h₁, h₂, h₃, h₄, h₅, ?_⟩
          intro tid hb hmem
          rcases List.mem_append.mp hmem with hm | hm
          · exact hf tid hb hm
          · simp at hm
            omega
        exact tickSafe_drainFuel _ ph _ (tickSafe_runCb ph e.cb _ hstart)

/-- Running a list of bounded-guard entries preserves the invariant. -/
lemma tickSafe_runEntries {b : Nat} {base : List Nat} (ph : Phase)
    (es : List Entry) (hes : guardsBelow b es) :
    ∀ σ : EL, tickSafe b base σ → tickSafe b base (runEntries ph σ es) := by
  induction es with
  | nil => intro σ h; exact h
  | cons e rest ih =>
      intro σ h
      simp only [runEntries, List.foldl_cons]
      exact ih (fun x hx tid hg => hes x (List.mem_cons_of_mem _ hx) tid hg) _
        (tickSafe_runEntry ph σ e
          (fun tid hg => hes e (List.mem_cons_self _ _) tid hg) h)

/-- Emptying a phase queue preserves the invariant. -/
lemma tickSafe_setQueue_empty {b : Nat} {base : List Nat} (σ : EL)
    (ph : Phase) (h : tickSafe b base σ) :
    tickSafe b base (σ.setQueue ph []) := by
  obtain ⟨h₁, h₂, h₃, h₄, h₅, hf⟩ := h
  have hnil : guardsBelow b ([] : List Entry) := by
    intro e he
    simp at he
  cases ph with
  | timers => exact ⟨hnil, h₂, h₃, h₄, h₅, hf⟩
  | pending => exact ⟨h₁, hnil, h₃, h₄, h₅, hf⟩
  | poll => exact ⟨h₁, h₂, hnil, h₄, h₅, hf⟩
  | check => exact ⟨h₁, h₂, h₃, hnil, h₅, hf⟩
  | close => exact ⟨h₁, h₂, h₃, h₄, hnil, hf⟩

/-- Running a whole phase preserves the invariant. -/
lemma tickSafe_runPhase {b : Nat} {base : List Nat} (ph : Phase) (σ : EL)
    (h : tickSafe b base σ) : tickSafe b base (runPhase ph σ) := by
  unfold runPhase
  have hq : guardsBelow b (σ.queueOf ph) := by
    cases ph with
    | timers => exact h.1
    | pending => exact h.2.1
    | poll => exact h.2.2.1
    | check => exact h.2.2.2.1
    | close => exact h.2.2.2.2.1
  exact tickSafe_runEntries ph _ hq _ (tickSafe_setQueue_empty σ ph h)

/-- Advancing the pool preserves the invariant: completion entries are
unguarded. -/
lemma tickSafe_tickPool {b : Nat} {base : List Nat} (σ : EL)
    (h : tickSafe b base σ) : tickSafe b base (tickPool σ) := by
  obtain ⟨h₁, h₂, h₃, h₄, h₅, hf⟩ := h
  refine ⟨h₁, ?_, h₃, h₄, h₅, hf⟩
  intro e he tid hg
  rcases List.mem_append.mp he with hm | hm
  · exact h₂ e hm tid hg
  · simp only [List.mem_map] at hm
    obtain ⟨cb, hcb, rfl⟩ := hm
    simp at hg

/-- A timer registered during a tick (its id at least nextTid) cannot fire
within that tick: every id newly fired during the tick was promoted from
the registry at tick start and is below nextTid. -/
lemma tick_fired_fresh (s : EL) (hfr : freshTids s) :
    ∀ tid, s.nextTid ≤ tid → tid ∈ (tick s).fired → tid ∈ s.fired := by
  obtain ⟨hreg, h₁, h₂, h₃, h₄, h₅⟩ := hfr
  have hstart : tickSafe s.nextTid s.fired (promoteTimers s) := by
    refine ⟨?_, h₂, h₃, h₄, h₅, fun tid _ hm => hm⟩
    intro e he tid hg
    rcases List.mem_append.mp he with hm | hm
    · exact h₁ e hm tid hg
    · simp only [List.mem_map] at hm
      obtain ⟨tm, htm, rfl⟩ := hm
      have htm₂ : tm ∈ s.registry :=
        List.mem_of_mem_filter (mem_sortByDeadline htm)
      simp only [Entry.guardId] at hg
      cases hg
      exact hreg tm htm₂
  have hend := tickSafe_tickPool _ (tickSafe_runPhase .close _
    (tickSafe_runPhase .check _ (tickSafe_runPhase .poll _
      (tickSafe_runPhase .pending _ (tickSafe_runPhase .timers _ hstart)))))
  intro tid hb hm
  exact hend.2.2.2.2.2 tid hb hm

/-- One tick only appends to the trace. -/
lemma tick_trace_ext (σ : EL) : ∃ E, (tick σ).trace = σ.trace ++ E := by
  obtain ⟨e₁, e₂, e₃, e₄, e₅, htr, -, -, -, -, -⟩ := tick_trace_blocks σ
  refine ⟨e₁ ++ e₂ ++ e₃ ++ e₄ ++ e₅, ?_⟩
  rw [htr]
  simp [List.append_assoc]

/-- Any number of ticks only appends to the trace. -/
lemma tickN_trace_ext (k : Nat) :
    ∀ σ : EL, ∃ E, (tickN k σ).trace = σ.trace ++ E := by
  induction k with
  | zero => intro σ; exact ⟨[], by simp [tickN]⟩
  | succ m ih =>
      intro σ
      obtain ⟨E₁, hE₁⟩ := tick_trace_ext σ
      obtain ⟨E₂, hE₂⟩ := ih (tick σ)
      refine ⟨E₁ ++ E₂, ?_⟩
      show (tickN m (tick σ)).trace = σ.trace ++ (E₁ ++ E₂)
      rw [hE₂, hE₁, List.append_assoc]

/-- Running a callback body containing a Check-phase registration puts the
registered entry into the Check queue. -/
lemma checkQ_insert_runCb (ph : Phase) (l₁ l₂ : List Action) (ccb : Cb) :
    ∀ σ : EL, (⟨none, ccb⟩ : Entry) ∈
      (runCb ph σ (l₁ ++ Action.phaseA Phase.check ccb :: l₂)).checkQ := by
  induction l₁ with
  | nil =>
      intro σ
      simp only [List.nil_append, runCb, List.foldl_cons]
      apply queue_mem_runCb Phase.check ph l₂
      exact List.mem_append_right _ (List.mem_cons_self _ _)
  | cons a rest ih =>
      intro σ
      simp only [List.cons_append, runCb, List.foldl_cons]
      exact ih (runAction ph σ a)

/-- Running a snapshot containing an unguarded entry that registers a
Check-phase callback puts that callback into the Check queue. -/
lemma checkQ_insert_runEntries (ph : Phase) (l₁ l₂ : List Action) (ccb : Cb) :
    ∀ (q : List Entry) (σ : EL),
      (⟨none, l₁ ++ Action.phaseA Phase.check ccb :: l₂⟩ : Entry) ∈ q →
      (⟨none, ccb⟩ : Entry) ∈ (runEntries ph σ q).checkQ := by
  intro q
  induction q with
  | nil => intro σ h; simp at h
  | cons e rest ih =>
      intro σ h
      simp only [runEntries, List.foldl_cons]
      rcases List.mem_cons.mp h with he | he
      · apply queue_mem_runEntries Phase.check ph rest
        rw [show runEntry ph σ e = drain ph (runCb ph σ e.cb) from by
          rw [← he]; rfl]
        exact queue_mem_drainFuel Phase.check _ ph _
          (by rw [← he]; exact checkQ_insert_runCb ph l₁ l₂ ccb σ)
      · exact ih _ he

/-- Running a callback body containing an emit leaves the event in the
appended part of the trace. -/
lemma runCb_emit (ph : Phase) (t : Nat) (l₁ l₂ : List Action) :
    ∀ σ : EL, ∃ E, (runCb ph σ (l₁ ++ Action.emit t :: l₂)).trace =
      σ.trace ++ E ∧ (⟨ph, t⟩ : Event) ∈ E := by
  induction l₁ with
  | nil =>
      intro σ
      simp only [List.nil_append, runCb, List.foldl_cons]
      obtain ⟨E₂, hE₂, -⟩ := tracePh_runCb ph (runAction ph σ (.emit t)) l₂
      refine ⟨⟨ph, t⟩ :: E₂, ?_, List.mem_cons_self _ _⟩
      rw [show (List.foldl (runAction ph) (runAction ph σ (.emit t)) l₂) =
        runCb ph (runAction ph σ (.emit t)) l₂ from rfl, hE₂]
      show (σ.trace ++ [⟨ph, t⟩]) ++ E₂ = σ.trace ++ (⟨ph, t⟩ :: E₂)
      rw [List.append_assoc]
      rfl
  | cons a rest ih =>
      intro σ
      simp only [List.cons_append, runCb, List.foldl_cons]
      obtain ⟨E, hE, hmem⟩ := ih (runAction ph σ a)
      obtain ⟨E₀, hE₀, -⟩ := tracePh_runAction ph σ a
      refine ⟨E₀ ++ E, ?_, List.mem_append_right _ hmem⟩
      rw [show (List.foldl (runAction ph) (runAction ph σ a)
        (rest ++ Action.emit t :: l₂)) =
        runCb ph (runAction ph σ a) (rest ++ Action.emit t :: l₂) from rfl,
        hE, hE₀, List.append_assoc]

/-- Running a snapshot containing an unguarded emitting entry leaves its
event in the appended part of the trace. -/
lemma runEntries_emit (ph : Phase) (t : Nat) (ccbPre ccbPost : List Action) :
    ∀ (q : List Entry) (σ : EL),
      (⟨none, ccbPre ++ Action.emit t :: ccbPost⟩ : Entry) ∈ q →
      ∃ E, (runEntries ph σ q).trace = σ.trace ++ E ∧
        (⟨ph, t⟩ : Event) ∈ E := by
  intro q
  induction q with
  | nil => intro σ h; simp at h
  | cons e rest ih =>
      intro σ h
      simp only [runEntries, List.foldl_cons]
      rcases List.mem_cons.mp h with he | he
      · obtain ⟨E₁, hE₁, hm₁⟩ := runCb_emit ph t ccbPre ccbPost σ
        obtain ⟨E₂, hE₂, -⟩ :=
          tracePh_drainFuel (contMeasure (runCb ph σ e.cb).contQ) ph
            (runCb ph σ e.cb)
        obtain ⟨E₃, hE₃, -⟩ := tracePh_foldl ph (runEntry ph)
          (tracePh_runEntry ph) rest (runEntry ph σ e)
        refine ⟨(E₁ ++ E₂) ++ E₃, ?_, ?_⟩
        · show (runEntries ph (runEntry ph σ e) rest).trace =
            σ.trace ++ ((E₁ ++ E₂) ++ E₃)
          rw [show runEntries ph (runEntry ph σ e) rest =
            List.foldl (runEntry ph) (runEntry ph σ e) rest from rfl, hE₃]
          rw [show runEntry ph σ e = drain ph (runCb ph σ e.cb) from by
            rw [← he]; rfl]
          rw [show drain ph (runCb ph σ e.cb) =
            drainFuel (contMeasure (runCb ph σ e.cb).contQ) ph
              (runCb ph σ e.cb) from rfl, hE₂]
          rw [show (runCb ph σ e.cb).trace = σ.trace ++ E₁ from by
            rw [← he]; exact hE₁]
          rw [List.append_assoc, List.append_assoc, List.append_assoc]
        · exact List.mem_append_left _ (List.mem_append_left _ hm₁)
      · obtain ⟨E, hE, hm⟩ := ih (runEntry ph σ e) he
        obtain ⟨E₀, hE₀, -⟩ := tracePh_runEntry ph σ e
        refine ⟨E₀ ++ E, ?_, List.mem_append_right _ hm⟩
        show (runEntries ph (runEntry ph σ e) rest).trace =
          σ.trace ++ (E₀ ++ E)
        rw [hE, hE₀, List.append_assoc]

/-- The Check-phase callback registered during a Poll-phase callback runs
during the very same tick: its event is among this tick's new events. -/
lemma tick_check_event (s : EL) (pre post : List Entry)
    (l₁ l₂ ccbPre ccbPost : List Action) (iTag : Nat)
    (hq : s.pollQ = pre ++ (⟨none, l₁ ++ Action.phaseA Phase.check
        (ccbPre ++ Action.emit iTag :: ccbPost) :: l₂⟩ : Entry) :: post) :
    (⟨Phase.check, iTag⟩ : Event) ∈ newEvents s (tick s) := by
  have hmem₀ : (⟨none, l₁ ++ Action.phaseA Phase.check
      (ccbPre ++ Action.emit iTag :: ccbPost) :: l₂⟩ : Entry) ∈ s.pollQ := by
    rw [hq]
    exact List.mem_append_right _ (List.mem_cons_self _ _)
  have hmem₁ : (⟨none, l₁ ++ Action.phaseA Phase.check
      (ccbPre ++ Action.emit iTag :: ccbPost) :: l₂⟩ : Entry) ∈
      (promoteTimers s).pollQ := by
    rw [promoteTimers_pollQ]
    exact hmem₀
  have hmem₂ := queue_mem_runPhase Phase.poll Phase.timers (by decide)
    (promoteTimers s) hmem₁
  have hmem₃ := queue_mem_runPhase Phase.poll Phase.pending (by decide)
    (runPhase .timers (promoteTimers s)) hmem₂
  set σ₂ := runPhase .pending (runPhase .timers (promoteTimers s)) with hσ₂
  have hcmem : (⟨none, ccbPre ++ Action.emit iTag :: ccbPost⟩ : Entry) ∈
      (runPhase .poll σ₂).checkQ := by
    unfold runPhase
    exact checkQ_insert_runEntries Phase.poll l₁ l₂ _ σ₂.pollQ
      (σ₂.setQueue .poll []) hmem₃
  set σ₃ := runPhase .poll σ₂ with hσ₃
  obtain ⟨E₄, hE₄, hm₄⟩ := runEntries_emit Phase.check iTag ccbPre ccbPost
    σ₃.checkQ (σ₃.setQueue .check []) hcmem
  have hcheck : (runPhase .check σ₃).trace = σ₃.trace ++ E₄ := by
    show (runEntries Phase.check (σ₃.setQueue Phase.check [])
      σ₃.checkQ).trace = σ₃.trace ++ E₄
    rw [hE₄, setQueue_trace]
  obtain ⟨E₁, hE₁, -⟩ := tracePh_runPhase .timers (promoteTimers s)
  obtain ⟨E₂, hE₂, -⟩ := tracePh_runPhase .pending
    (runPhase .timers (promoteTimers s))
  obtain ⟨E₃, hE₃, -⟩ := tracePh_runPhase .poll σ₂
  obtain ⟨E₅, hE₅, -⟩ := tracePh_runPhase .close (runPhase .check σ₃)
  have htick : (tick s).trace = (runPhase .close (runPhase .check σ₃)).trace :=
    rfl
  have htr : (tick s).trace =
      s.trace ++ (E₁ ++ (E₂ ++ (E₃ ++ (E₄ ++ E₅)))) := by
    rw [htick, hE₅, hcheck, hE₃]
    rw [show σ₂.trace = (runPhase .timers (promoteTimers s)).trace ++ E₂
      from hE₂]
    rw [hE₁, promoteTimers_trace]
    simp [List.append_assoc]
  unfold newEvents
  rw [htr, List.drop_left]
  exact List.mem_append_right _ (List.mem_append_right _
    (List.mem_append_right _ (List.mem_append_left _ hm₄)))

/-- Claim C10: whenever a Poll-phase callback registers both a zero-delay
timer and a Check-phase setImmediate callback — at any position of the
poll queue, with any surrounding actions, callback bodies and scheduler
state whose timer ids are consistently allocated — the Check callback
executes during the very same tick (its event is among this tick's new
events), while no timer registered during the tick, the zero-delay timer
included, fires within it; and every event of any later tick is appended
after this tick's trace, so the Check callback runs before the timer
callback. -/
theorem claim_C10_check_before_timer (s : EL) (pre post : List Entry)
    (l₁ lmid l₂ : List Action) (iv : Option Nat) (tcb : Cb)
    (ccbPre ccbPost : List Action) (iTag : Nat)
    (hq : s.pollQ = pre ++ (⟨none, l₁ ++ Action.timerA 0 iv tcb ::
        (lmid ++ Action.phaseA Phase.check
          (ccbPre ++ Action.emit iTag :: ccbPost) :: l₂)⟩ : Entry) :: post)
    (hfr : freshTids s) :
    (⟨Phase.check, iTag⟩ : Event) ∈ newEvents s (tick s) ∧
    (∀ tid, s.nextTid ≤ tid → tid ∈ (tick s).fired → tid ∈ s.fired) ∧
    (∀ k, ∃ evs, (tickN k (tick s)).trace = (tick s).trace ++ evs) := by
  refine ⟨?_, tick_fired_fresh s hfr, fun k => tickN_trace_ext k (tick s)⟩
  apply tick_check_event s pre post
    (l₁ ++ Action.timerA 0 iv tcb :: lmid) l₂ ccbPre ccbPost iTag
  rw [hq]
  simp [List.append_assoc]

/-- Claim C10 witness: the concrete race of the notes, a poll callback
registering a zero-delay timer (tag 100) and a setImmediate callback
(tag 200) in an otherwise empty scheduler. -/
theorem claim_C10_witness :
    (pollRaceStart.pollQ = [] ++ (⟨none, [] ++ Action.timerA 0 none
        [Action.emit 100] :: ([] ++ Action.phaseA Phase.check
          ([] ++ Action.emit 200 :: []) :: [])⟩ : Entry) :: [] ∧
      freshTids pollRaceStart) ∧
    (⟨Phase.check, 200⟩ : Event) ∈
      newEvents pollRaceStart (tick pollRaceStart) := by
  have hhq : pollRaceStart.pollQ = [] ++ (⟨none, [] ++ Action.timerA 0 none
      [Action.emit 100] :: ([] ++ Action.phaseA Phase.check
        ([] ++ Action.emit 200 :: []) :: [])⟩ : Entry) :: [] := rfl
  have hfr : freshTids pollRaceStart := by
    refine ⟨?_, ?_, ?_, ?_, ?_, ?_⟩
    · intro tm htm
      simp [pollRaceStart, emptyEL] at htm
    · intro e he tid hg
      simp [pollRaceStart, emptyEL] at he
    · intro e he tid hg
      simp [pollRaceStart, emptyEL] at he
    · intro e he tid hg
      simp [pollRaceStart, emptyEL] at he
      rw [he] at hg
      simp at hg
    · intro e he tid hg
      simp [pollRaceStart, emptyEL] at he
    · intro e he tid hg
      simp [pollRaceStart, emptyEL] at he
  exact ⟨⟨hhq, hfr⟩,
    (claim_C10_check_before_timer pollRaceStart [] [] [] [] [] none
      [Action.emit 100] [] [] 200 hhq hfr).1⟩

/-- A filter and its negation split the length of a list. -/
lemma length_filter_not_add {α : Type} (l : List α) (p : α → Bool) :
    (l.filter p).length + (l.filter (fun x => !(p x))).length = l.length := by
  induction l with
  | nil => rfl
  | cons a rest ih =>
      cases hpa : p a <;> simp [List.filter_cons, hpa] <;> omega

/-- The queue after one pool step. -/
lemma poolAdvance_queue (s : PoolState) :
    (poolAdvance s).queue = s.queue.drop (poolFree s) := rfl

/-- The lanes after one pool step. -/
lemma poolAdvance_lanes (s : PoolState) :
    (poolAdvance s).lanes =
      poolStill s ++ (poolStarted s).map (fun j => ⟨j, j.duration⟩) := rfl

/-- The start log after one pool step. -/
lemma poolAdvance_startLog (s : PoolState) :
    (poolAdvance s).startLog =
      s.startLog ++ (poolStarted s).map (fun j => (j.id, s.time + 1)) := rfl

/-- The completion log after one pool step. -/
lemma poolAdvance_doneLog (s : PoolState) :
    (poolAdvance s).doneLog = s.doneLog ++
      (poolDone s).map (fun r => (r.job.id, r.job.op r.job.payload, s.time + 1)) := rfl

/-- The pool size is fixed across steps. -/
lemma poolAdvance_poolSize (s : PoolState) :
    (poolAdvance s).poolSize = s.poolSize := rfl

/-- Advancing a lane does not change its job. -/
lemma laneTick_job (r : RunningJob) : (laneTick r).job = r.job := rfl

/-- The still-running lanes are at most the previous lanes. -/
lemma poolStill_length_le (s : PoolState) :
    (poolStill s).length ≤ s.lanes.length := by
  have h := List.length_filter_le (fun r => !(r.remaining == 0)) (poolTicked s)
  simpa [poolStill, poolTicked] using h

/-- Finishing and still-running lanes partition the previous lanes. -/
lemma poolDone_add_still (s : PoolState) :
    (poolDone s).length + (poolStill s).length = s.lanes.length := by
  have h := length_filter_not_add (poolTicked s) (fun r => r.remaining == 0)
  simp only [poolDone, poolStill]
  simp only [poolTicked, List.length_map] at h
  simpa [poolTicked] using h

/-- The pool invariant holds at a fresh simultaneous submission. -/
lemma poolInv_init (n : Nat) (jobs : List Job) :
    PoolInv n jobs (poolInit n jobs) := by
  refine ⟨rfl, ?_, ?_, ⟨n, ?_, rfl⟩, ?_⟩
  · simp [poolInit, List.length_take]
  · intro hqn
    simp only [poolInit] at hqn ⊢
    have hlen : ¬ (jobs.length ≤ n) := fun hle => hqn (List.drop_eq_nil_of_le hle)
    simp [List.length_take]
    omega
  · simp only [poolInit, List.map_map]
    rw [← List.map_take]
    rfl
  · intro r hr
    simp only [poolInit, List.mem_map] at hr
    obtain ⟨j, hj, rfl⟩ := hr
    simp only [poolInit, List.map_map, List.mem_map]
    exact ⟨j, hj, rfl⟩

/-- One pool step preserves the pool invariant. -/
lemma poolInv_advance {n : Nat} {jobs : List Job} {s : PoolState}
    (h : PoolInv n jobs s) : PoolInv n jobs (poolAdvance s) := by
  obtain ⟨hsz, hle, hfull, ⟨k, hsl, hq⟩, hls⟩ := h
  have hstill_le : (poolStill s).length ≤ n :=
    le_trans (poolStill_length_le s) hle
  have hfree : poolFree s = n - (poolStill s).length := by
    simp [poolFree, hsz]
  refine ⟨(poolAdvance_poolSize s).trans hsz, ?_, ?_, ?_, ?_⟩
  · rw [poolAdvance_lanes]
    have hst : (poolStarted s).length ≤ poolFree s := by
      simp [poolStarted, List.length_take]
    simp only [List.length_append, List.length_map]
    omega
  · intro hq'
    rw [poolAdvance_queue] at hq'
    have hgt : poolFree s < s.queue.length := by
      by_contra hc
      push_neg at hc
      exact hq' (List.drop_eq_nil_of_le hc)
    have hqne : s.queue ≠ [] := by
      intro h0
      rw [h0] at hgt
      simp at hgt
    have hlanes := hfull hqne
    have hst : (poolStarted s).length = poolFree s := by
      simp [poolStarted, List.length_take]
      omega
    rw [poolAdvance_lanes]
    simp only [List.length_append, List.length_map]
    omega
  · refine ⟨k + poolFree s, ?_, ?_⟩
    · rw [poolAdvance_startLog, List.map_append, hsl]
      have hst : ((poolStarted s).map (fun j => (j.id, s.time + 1))).map Prod.fst
          = (poolStarted s).map Job.id := by
        simp [List.map_map]
      have hstarted : (poolStarted s).map Job.id =
          ((jobs.map Job.id).drop k).take (poolFree s) := by
        rw [poolStarted, hq, List.map_take, List.map_drop]
      rw [hst, hstarted, ← List.take_add]
    · rw [poolAdvance_queue, hq, List.drop_drop]
  · intro r hr
    rw [poolAdvance_lanes] at hr
    rw [poolAdvance_startLog, List.map_append]
    rcases List.mem_append.mp hr with hmem | hmem
    · have hticked : r ∈ poolTicked s := List.mem_of_mem_filter hmem
      simp only [poolTicked, List.mem_map] at hticked
      obtain ⟨r₀, hr₀, rfl⟩ := hticked
      apply List.mem_append_left
      rw [laneTick_job]
      exact hls r₀ hr₀
    · simp only [List.mem_map] at hmem
      obtain ⟨j, hj, rfl⟩ := hmem
      apply List.mem_append_right
      simp only [List.map_map, List.mem_map]
      exact ⟨j, hj, rfl⟩

/-- The pool invariant holds after any number of steps. -/
lemma poolInv_advanceN (n : Nat) (jobs : List Job) (k : Nat) :
    ∀ s : PoolState, PoolInv n jobs s → PoolInv n jobs (poolAdvanceN k s) := by
  induction k with
  | zero => intro s h; exact h
  | succ m ih => intro s h; exact ih _ (poolInv_advance h)

/-- Iterating pool steps peels from the right as well. -/
lemma poolAdvanceN_succ (k : Nat) :
    ∀ s : PoolState, poolAdvanceN (k + 1) s = poolAdvance (poolAdvanceN k s) := by
  induction k with
  | zero => intro s; rfl
  | succ m ih =>
      intro s
      rw [show poolAdvanceN (m + 2) s = poolAdvanceN (m + 1) (poolAdvance s) from rfl,
          ih, show poolAdvanceN (m + 1) s = poolAdvanceN m (poolAdvance s) from rfl]

/-- A member of a prefix sits at an index below the prefix length. -/
lemma mem_take_index {α : Type} (l : List α) (kk : Nat) (x : α)
    (h : x ∈ l.take kk) :
    ∃ i, ∃ hi : i < l.length, i < kk ∧ l.get ⟨i, hi⟩ = x := by
  obtain ⟨i, hi, hget⟩ := List.getElem_of_mem h
  have hikk : i < kk := by
    have := hi
    simp [List.length_take] at this
    omega
  have hilen : i < l.length := by
    have := hi
    simp [List.length_take] at this
    omega
  refine ⟨i, hilen, hikk, ?_⟩
  have h2 : (l.take kk).get ⟨i, hi⟩ = l.get ⟨i, hilen⟩ := by
    simp [List.getElem_take]
  rw [← h2]
  simpa using hget

/-- A member of a suffix sits at an index at least the number dropped. -/
lemma mem_drop_index {α : Type} (l : List α) (kk : Nat) (x : α)
    (h : x ∈ l.drop kk) :
    ∃ i, ∃ hi : i < l.length, kk ≤ i ∧ l.get ⟨i, hi⟩ = x := by
  obtain ⟨i, hi, hget⟩ := List.getElem_of_mem h
  have hilen : kk + i < l.length := by
    have := hi
    simp [List.length_drop] at this
    omega
  refine ⟨kk + i, hilen, by omega, ?_⟩
  have h2 : (l.drop kk).get ⟨i, hi⟩ = l.get ⟨kk + i, hilen⟩ := by
    simp [List.getElem_drop]
  rw [← h2]
  simpa using hget

/-- In a duplicate-free list, a member of a prefix sits at an index below
the prefix length. -/
lemma id_mem_take_lt (ids : List Nat) (hnd : ids.Nodup) (nn kk : Nat)
    (hn : nn < ids.length) (hmem : ids.get ⟨nn, hn⟩ ∈ ids.take kk) : nn < kk := by
  obtain ⟨m, hmlen, hmlt, hget⟩ := mem_take_index ids kk _ hmem
  have heq : m = nn := congrArg Fin.val ((List.Nodup.get_inj_iff hnd).mp hget)
  omega

/-- In a duplicate-free list, a member of a suffix sits at an index at
least the number dropped. -/
lemma id_mem_drop_ge (ids : List Nat) (hnd : ids.Nodup) (nn kk : Nat)
    (hn : nn < ids.length) (hmem : ids.get ⟨nn, hn⟩ ∈ ids.drop kk) : kk ≤ nn := by
  obtain ⟨m, hmlen, hmge, hget⟩ := mem_drop_index ids kk _ hmem
  have heq : m = nn := congrArg Fin.val ((List.Nodup.get_inj_iff hnd).mp hget)
  omega

/-- The (n+1)th submitted job starts only at the timestamp at which one of
the n previously started jobs completes. -/
lemma start_after_completion (n : Nat) (jobs : List Job)
    (hnd : (jobs.map Job.id).Nodup) (hm : n < jobs.length) :
    ∀ (k : Nat) (t : Nat),
      ((jobs.get ⟨n, hm⟩).id, t) ∈ (poolAdvanceN k (poolInit n jobs)).startLog →
      ∃ i, ∃ hi : i < jobs.length, i < n ∧ ∃ res t', t' ≤ t ∧
        ((jobs.get ⟨i, hi⟩).id, res, t') ∈
          (poolAdvanceN k (poolInit n jobs)).doneLog := by
  have hidn : n < (jobs.map Job.id).length := by
    simp [List.length_map]
    exact hm
  have hgetn : (jobs.map Job.id).get ⟨n, hidn⟩ = (jobs.get ⟨n, hm⟩).id := by
    simp
  intro k
  induction k with
  | zero =>
      intro t hmem
      exfalso
      simp only [poolAdvanceN, poolInit, List.mem_map] at hmem
      obtain ⟨j, hj, hjeq⟩ := hmem
      have hjid : j.id = (jobs.get ⟨n, hm⟩).id := congrArg Prod.fst hjeq
      have hmemtake : (jobs.map Job.id).get ⟨n, hidn⟩ ∈ (jobs.map Job.id).take n := by
        rw [hgetn, ← List.map_take]
        exact List.mem_map.mpr ⟨j, hj, hjid⟩
      have := id_mem_take_lt (jobs.map Job.id) hnd n n hidn hmemtake
      omega
  | succ m ih =>
      intro t hmem
      rw [poolAdvanceN_succ] at hmem ⊢
      have hinv := poolInv_advanceN n jobs m _ (poolInv_init n jobs)
      obtain ⟨hsz, hlanes_le, hfull, ⟨kk, hsl, hqq⟩, hls⟩ := hinv
      rw [poolAdvance_startLog] at hmem
      rcases List.mem_append.mp hmem with hold | hnew
      · obtain ⟨i, hi, hin, res, t', hle', hdone⟩ := ih t hold
        exact ⟨i, hi, hin, res, t', hle',
          by rw [poolAdvance_doneLog]; exact List.mem_append_left _ hdone⟩
      · simp only [List.mem_map] at hnew
        obtain ⟨j, hj, hjeq⟩ := hnew
        have hjid : j.id = (jobs.get ⟨n, hm⟩).id := congrArg Prod.fst hjeq
        have ht : t = (poolAdvanceN m (poolInit n jobs)).time + 1 :=
          (congrArg (fun p => p.2) hjeq).symm
        set s := poolAdvanceN m (poolInit n jobs) with hs
        have hjq : j ∈ s.queue := List.take_subset _ _ hj
        have hkk_le : kk ≤ n := by
          apply id_mem_drop_ge (jobs.map Job.id) hnd n kk hidn
          rw [hgetn, ← hjid, ← List.map_drop, ← hqq]
          exact List.mem_map.mpr ⟨j, hjq, rfl⟩
        have hfree_pos : 0 < poolFree s := by
          by_contra hc
          push_neg at hc
          have : poolFree s = 0 := by omega
          rw [poolStarted, this, List.take_zero] at hj
          simp at hj
        have hqne : s.queue ≠ [] := by
          intro h0
          rw [poolStarted, h0, List.take_nil] at hj
          simp at hj
        have hlanes := hfull hqne
        have hdonepos : 0 < (poolDone s).length := by
          have hps := poolDone_add_still s
          have hfr : poolFree s = s.poolSize - (poolStill s).length := rfl
          omega
        obtain ⟨r, hr⟩ : ∃ r, r ∈ poolDone s := by
          cases hpd : poolDone s with
          | nil => rw [hpd] at hdonepos; simp at hdonepos
          | cons a l => exact ⟨a, List.mem_cons_self a l⟩
        have hticked : r ∈ poolTicked s := List.mem_of_mem_filter hr
        simp only [poolTicked, List.mem_map] at hticked
        obtain ⟨r₀, hr₀, hrt⟩ := hticked
        have hrid : r.job.id = r₀.job.id := by rw [← hrt]; rfl
        have hmemsl : r₀.job.id ∈ (jobs.map Job.id).take kk := by
          rw [← hsl]
          exact hls r₀ hr₀
        obtain ⟨mi, hmi_lenm, hmi_kk, hgeti⟩ :=
          mem_take_index (jobs.map Job.id) kk _ hmemsl
        have hmi_len : mi < jobs.length := by simpa using hmi_lenm
        have hgeti' : (jobs.get ⟨mi, hmi_len⟩).id = r₀.job.id := by
          simpa using hgeti
        refine ⟨mi, hmi_len, by omega, r.job.op r.job.payload, s.time + 1,
          by omega, ?_⟩
        rw [poolAdvance_doneLog]
        apply List.mem_append_right
        apply List.mem_map.mpr
        refine ⟨r, hr, ?_⟩
        rw [hgeti', ← hrid]

/-- Claim C1: for a pool of size n and any batch of simultaneously
submitted jobs with distinct ids, never more than n jobs occupy lanes,
jobs start in FIFO submission order (the started ids always form a prefix
of the submission order), and the (n+1)th submitted job starts only at a
timestamp at which one of the earlier n jobs has completed. -/
theorem claim_C1_pool_concurrency_bound (n : Nat) (jobs : List Job) (k : Nat)
    (hnd : (jobs.map Job.id).Nodup) (hm : n < jobs.length) :
    (poolAdvanceN k (poolInit n jobs)).lanes.length ≤ n ∧
    (∃ kk, (poolAdvanceN k (poolInit n jobs)).startLog.map Prod.fst =
        (jobs.map Job.id).take kk) ∧
    (∀ t, ((jobs.get ⟨n, hm⟩).id, t) ∈ (poolAdvanceN k (poolInit n jobs)).startLog →
        ∃ i, ∃ hi : i < jobs.length, i < n ∧ ∃ res t', t' ≤ t ∧
          ((jobs.get ⟨i, hi⟩).id, res, t') ∈
            (poolAdvanceN k (poolInit n jobs)).doneLog) := by
  have hinv := poolInv_advanceN n jobs k _ (poolInv_init n jobs)
  obtain ⟨kk, hsl, -⟩ := hinv.fifo
  exact ⟨hinv.lanes_le, ⟨kk, hsl⟩, start_after_completion n jobs hnd hm k⟩

/-- Claim C1 witness: a pool of one lane serving two unit jobs keeps the
concurrency bound. -/
theorem claim_C1_witness :
    ((twoJobs.map Job.id).Nodup ∧ 1 < twoJobs.length) ∧
    (poolAdvanceN 2 (poolInit 1 twoJobs)).lanes.length ≤ 1 :=
  ⟨⟨by decide, by decide⟩,
   (claim_C1_pool_concurrency_bound 1 twoJobs 2 (by decide) (by decide)).1⟩

/-- Mapping related lists with relation-respecting functions relates the
images. -/
lemma forall₂_map_rel {α β γ δ : Type} {R : α → β → Prop} {S : γ → δ → Prop}
    {f : α → γ} {g : β → δ} (hfg : ∀ a b, R a b → S (f a) (g b)) :
    ∀ {l₁ : List α} {l₂ : List β}, List.Forall₂ R l₁ l₂ →
      List.Forall₂ S (l₁.map f) (l₂.map g) := by
  intro l₁ l₂ h
  induction h with
  | nil => exact List.Forall₂.nil
  | cons hab _ ih =>
      simp only [List.map_cons]
      exact List.Forall₂.cons (hfg _ _ hab) ih

/-- Filtering related lists with predicates agreeing on related pairs
relates the filtered lists. -/
lemma forall₂_filter_rel {α β : Type} {R : α → β → Prop} {p : α → Bool}
    {q : β → Bool} (hpq : ∀ a b, R a b → p a = q b) :
    ∀ {l₁ : List α} {l₂ : List β}, List.Forall₂ R l₁ l₂ →
      List.Forall₂ R (l₁.filter p) (l₂.filter q) := by
  intro l₁ l₂ h
  induction h with
  | nil => exact List.Forall₂.nil
  | @cons a b la lb hab _ ih =>
      rw [List.filter_cons, List.filter_cons]
      have hq : q b = p a := (hpq _ _ hab).symm
      cases hpa : p a with
      | true =>
          rw [hq, hpa]
          exact List.Forall₂.cons hab ih
      | false =>
          rw [hq, hpa]
          exact ih

/-- Mapping related lists with functions agreeing on related pairs yields
equal lists. -/
lemma forall₂_map_eq {α β γ : Type} {R : α → β → Prop} {f : α → γ}
    {g : β → γ} (hfg : ∀ a b, R a b → f a = g b) :
    ∀ {l₁ : List α} {l₂ : List β}, List.Forall₂ R l₁ l₂ →
      l₁.map f = l₂.map g := by
  intro l₁ l₂ h
  induction h with
  | nil => rfl
  | cons hab _ ih =>
      simp only [List.map_cons]
      rw [hfg _ _ hab, ih]

/-- One pool step preserves the shape relation between two pools. -/
lemma samePool_advance {s₁ s₂ : PoolState} (h : samePool s₁ s₂) :
    samePool (poolAdvance s₁) (poolAdvance s₂) := by
  obtain ⟨hsz, hq, hl, hsl, hdl, ht⟩ := h
  have hticked : List.Forall₂ sameRun (poolTicked s₁) (poolTicked s₂) :=
    forall₂_map_rel (fun r₁ r₂ hr => ⟨hr.1, by simp [laneTick, hr.2]⟩) hl
  have hdone : List.Forall₂ sameRun (poolDone s₁) (poolDone s₂) :=
    forall₂_filter_rel (fun a b hab => by simp [hab.2]) hticked
  have hstill : List.Forall₂ sameRun (poolStill s₁) (poolStill s₂) :=
    forall₂_filter_rel (fun a b hab => by simp [hab.2]) hticked
  have hfree : poolFree s₁ = poolFree s₂ := by
    simp [poolFree, hsz, hstill.length_eq]
  have hstarted : List.Forall₂ sameJob (poolStarted s₁) (poolStarted s₂) := by
    rw [poolStarted, poolStarted, hfree]
    exact List.forall₂_take _ hq
  refine ⟨hsz, ?_, ?_, ?_, ?_, ?_⟩
  · rw [poolAdvance_queue, poolAdvance_queue, hfree]
    exact List.forall₂_drop _ hq
  · rw [poolAdvance_lanes, poolAdvance_lanes]
    exact List.rel_append hstill
      (forall₂_map_rel (fun a b hab => ⟨hab, hab.2⟩) hstarted)
  · rw [poolAdvance_startLog, poolAdvance_startLog, hsl, ht]
    congr 1
    exact forall₂_map_eq (fun a b hab => by rw [hab.1]) hstarted
  · rw [poolAdvance_doneLog, poolAdvance_doneLog, List.map_append,
        List.map_append, hdl, ht]
    congr 1
    rw [List.map_map, List.map_map]
    exact forall₂_map_eq (fun a b hab => by
      simp only [Function.comp]
      rw [hab.1.1]) hdone
  · show s₁.time + 1 = s₂.time + 1
    rw [ht]

/-- Any number of pool steps preserves the shape relation. -/
lemma samePool_advanceN (k : Nat) :
    ∀ {s₁ s₂ : PoolState}, samePool s₁ s₂ →
      samePool (poolAdvanceN k s₁) (poolAdvanceN k s₂) := by
  induction k with
  | zero => intro s₁ s₂ h; exact h
  | succ m ih => intro s₁ s₂ h; exact ih (samePool_advance h)

/-- Two shape-related batches give shape-related fresh pools. -/
lemma samePool_init (n : Nat) {jobs₁ jobs₂ : List Job}
    (h : List.Forall₂ sameJob jobs₁ jobs₂) :
    samePool (poolInit n jobs₁) (poolInit n jobs₂) := by
  refine ⟨rfl, List.forall₂_drop n h, ?_, ?_, rfl, rfl⟩
  · exact forall₂_map_rel (fun a b hab => ⟨hab, hab.2⟩) (List.forall₂_take n h)
  · show (jobs₁.take n).map (fun j => (j.id, 0)) =
      (jobs₂.take n).map (fun j => (j.id, 0))
    exact forall₂_map_eq (fun a b hab => by rw [hab.1]) (List.forall₂_take n h)

/-- Result delivery is correct at a fresh pool. -/
lemma deliverOK_init (n : Nat) (jobs : List Job) :
    deliverOK jobs (poolInit n jobs) := by
  refine ⟨?_, ?_, ?_⟩
  · intro r hr
    simp only [poolInit, List.mem_map] at hr
    obtain ⟨j, hj, rfl⟩ := hr
    exact List.take_subset _ _ hj
  · intro j hj
    simp only [poolInit] at hj
    exact List.drop_subset _ _ hj
  · intro e he
    simp [poolInit] at he

/-- One pool step preserves correct result delivery. -/
lemma deliverOK_advance {jobs : List Job} {s : PoolState}
    (h : deliverOK jobs s) : deliverOK jobs (poolAdvance s) := by
  obtain ⟨hl, hq, hd⟩ := h
  have hstarted_sub : ∀ j ∈ poolStarted s, j ∈ jobs := fun j hj =>
    hq j (List.take_subset _ _ hj)
  have hticked_sub : ∀ r ∈ poolTicked s, r.job ∈ jobs := by
    intro r hr
    simp only [poolTicked, List.mem_map] at hr
    obtain ⟨r₀, h₀, rfl⟩ := hr
    rw [laneTick_job]
    exact hl r₀ h₀
  refine ⟨?_, ?_, ?_⟩
  · intro r hr
    rw [poolAdvance_lanes] at hr
    rcases List.mem_append.mp hr with hm | hm
    · exact hticked_sub r (List.mem_of_mem_filter hm)
    · simp only [List.mem_map] at hm
      obtain ⟨j, hj, rfl⟩ := hm
      exact hstarted_sub j hj
  · intro j hj
    rw [poolAdvance_queue] at hj
    exact hq j (List.drop_subset _ _ hj)
  · intro e he
    rw [poolAdvance_doneLog] at he
    rcases List.mem_append.mp he with hm | hm
    · exact hd e hm
    · simp only [List.mem_map] at hm
      obtain ⟨r, hr, rfl⟩ := hm
      exact ⟨r.job, hticked_sub r (List.mem_of_mem_filter hr), rfl, rfl⟩

/-- Any number of pool steps preserves correct result delivery. -/
lemma deliverOK_advanceN (k : Nat) :
    ∀ {jobs : List Job} {s : PoolState}, deliverOK jobs s →
      deliverOK jobs (poolAdvanceN k s) := by
  induction k with
  | zero => intro jobs s h; exact h
  | succ m ih => intro jobs s h; exact ih (deliverOK_advance h)

/-- Replacing one element by a shape-equal one relates a list with its
update. -/
lemma forall₂_sameJob_set (jobs : List Job) (i : Nat) (hi : i < jobs.length)
    (x : Job) (hx : sameJob (jobs.get ⟨i, hi⟩) x) :
    List.Forall₂ sameJob jobs (jobs.set i x) := by
  apply List.forall₂_of_length_eq_of_get
  · simp
  · intro m h₁ h₂
    by_cases him : i = m
    · subst him
      have : (jobs.set i x).get ⟨i, h₂⟩ = x := by
        simp [List.getElem_set]
      rw [this]
      exact hx
    · have : (jobs.set i x).get ⟨m, h₂⟩ = jobs.get ⟨m, h₁⟩ := by
        simp [List.getElem_set, him]
      rw [this]
      exact ⟨rfl, rfl⟩

/-- The replaced batch keeps the id list. -/
lemma failJobs_map_id (jobs : List Job) (i : Nat) (hi : i < jobs.length)
    (opB : Nat → Except String Nat) (payB : Nat) :
    (failJobs jobs i opB payB).map Job.id = jobs.map Job.id := by
  rw [failJobs, List.modify_eq_set_get _ hi, List.map_set]
  have hx : ({ jobs.get ⟨i, hi⟩ with op := opB, payload := payB } : Job).id
      = (jobs.map Job.id).get ⟨i, by simpa using hi⟩ := by
    simp
  rw [hx]
  apply List.ext_getElem
  · simp
  · intro j h1 h2
    by_cases hij : i = j
    · subst hij
      simp [List.getElem_set]
    · simp [List.getElem_set, hij]

/-- Claim C6: replacing the operation of one job (for instance by a
throwing one) leaves the start log, the completion schedule and the lane
occupancy of the whole pool unchanged, every other job still receives the
result of its own operation on its own payload, and the failing job alone
receives the replaced-operation result. -/
theorem claim_C6_job_failure_isolation (n : Nat) (jobs : List Job) (i : Nat)
    (hi : i < jobs.length) (opB : Nat → Except String Nat) (payB : Nat)
    (hnd : (jobs.map Job.id).Nodup) (k : Nat) :
    (poolAdvanceN k (poolInit n jobs)).startLog =
      (poolAdvanceN k (poolInit n (failJobs jobs i opB payB))).startLog ∧
    (poolAdvanceN k (poolInit n jobs)).doneLog.map (fun e => (e.1, e.2.2)) =
      (poolAdvanceN k (poolInit n (failJobs jobs i opB payB))).doneLog.map
        (fun e => (e.1, e.2.2)) ∧
    (poolAdvanceN k (poolInit n jobs)).lanes.length =
      (poolAdvanceN k (poolInit n (failJobs jobs i opB payB))).lanes.length ∧
    (∀ e ∈ (poolAdvanceN k (poolInit n (failJobs jobs i opB payB))).doneLog,
        e.1 ≠ (jobs.get ⟨i, hi⟩).id →
        ∃ j ∈ jobs, j.id = e.1 ∧ e.2.1 = j.op j.payload) ∧
    (∀ e ∈ (poolAdvanceN k (poolInit n (failJobs jobs i opB payB))).doneLog,
        e.1 = (jobs.get ⟨i, hi⟩).id → e.2.1 = opB payB) := by
  have hset : failJobs jobs i opB payB =
      jobs.set i { jobs.get ⟨i, hi⟩ with op := opB, payload := payB } :=
    List.modify_eq_set_get _ hi
  have hsame : List.Forall₂ sameJob jobs (failJobs jobs i opB payB) := by
    rw [hset]
    exact forall₂_sameJob_set jobs i hi _ ⟨rfl, rfl⟩
  have hsp := samePool_advanceN k (samePool_init n hsame)
  obtain ⟨-, -, hlanes, hsl, hdl, -⟩ := hsp
  have hdel := deliverOK_advanceN k
    (deliverOK_init n (failJobs jobs i opB payB))
  have hilen : i < (failJobs jobs i opB payB).length := by
    rw [hset]
    simpa using hi
  have hgetiF : (failJobs jobs i opB payB).get ⟨i, hilen⟩ =
      { jobs.get ⟨i, hi⟩ with op := opB, payload := payB } := by
    rw [List.get_of_eq hset ⟨i, hilen⟩]
    simp [List.getElem_set]
  refine ⟨hsl, hdl, hlanes.length_eq, ?_, ?_⟩
  · intro e he hne
    obtain ⟨j₂, hj₂, hid, hres⟩ := hdel.2.2 e he
    obtain ⟨m, hm, hgetm⟩ := List.getElem_of_mem hj₂
    have hgetm2 : (failJobs jobs i opB payB).get ⟨m, hm⟩ = j₂ := by
      simpa using hgetm
    have htrans := List.get_of_eq hset ⟨m, hm⟩
    have hmlen : m < jobs.length := by
      have h0 := hm
      rw [hset] at h0
      simpa using h0
    by_cases him : i = m
    · exfalso
      subst him
      have hx : j₂ = { jobs.get ⟨i, hi⟩ with op := opB, payload := payB } := by
        rw [← hgetm2, htrans]
        simp [List.getElem_set]
      apply hne
      rw [← hid, hx]
    · have hx : j₂ = jobs.get ⟨m, hmlen⟩ := by
        rw [← hgetm2, htrans]
        simp [List.getElem_set, him]
      refine ⟨j₂, ?_, hid, hres⟩
      rw [hx]
      exact List.get_mem jobs m hmlen
  · intro e he hid
    obtain ⟨j₂, hj₂, hjid, hres⟩ := hdel.2.2 e he
    obtain ⟨m, hm, hgetm⟩ := List.getElem_of_mem hj₂
    have hgetm2 : (failJobs jobs i opB payB).get ⟨m, hm⟩ = j₂ := by
      simpa using hgetm
    have htrans := List.get_of_eq hset ⟨m, hm⟩
    have hndF : ((failJobs jobs i opB payB).map Job.id).Nodup := by
      rw [failJobs_map_id jobs i hi opB payB]
      exact hnd
    have hidm : ((failJobs jobs i opB payB).map Job.id).get
        ⟨m, by simpa using hm⟩ = j₂.id := by
      simp only [List.get_map]
      rw [hgetm2]
    have hidi : ((failJobs jobs i opB payB).map Job.id).get
        ⟨i, by simpa using hilen⟩ = (jobs.get ⟨i, hi⟩).id := by
      simp only [List.get_map]
      rw [hgetiF]
    have heqget : ((failJobs jobs i opB payB).map Job.id).get
        ⟨m, by simpa using hm⟩ =
        ((failJobs jobs i opB payB).map Job.id).get
        ⟨i, by simpa using hilen⟩ := by
      rw [hidm, hidi, hjid, hid]
    have hmi : i = m :=
      (congrArg Fin.val ((List.Nodup.get_inj_iff hndF).mp heqget)).symm
    subst hmi
    have hj₂x : j₂ = { jobs.get ⟨i, hi⟩ with op := opB, payload := payB } := by
      rw [← hgetm2, htrans]
      simp [List.getElem_set]
    rw [hres, hj₂x]

/-- Claim C6 witness: in a one-lane pool serving two unit jobs, replacing
the first operation by a throwing one leaves the start log unchanged. -/
theorem claim_C6_witness :
    (0 < twoJobs.length ∧ (twoJobs.map Job.id).Nodup) ∧
    (poolAdvanceN 2 (poolInit 1 twoJobs)).startLog =
      (poolAdvanceN 2 (poolInit 1 (failJobs twoJobs 0 throwingOp 0))).startLog :=
  ⟨⟨by decide, by decide⟩,
   (claim_C6_job_failure_isolation 1 twoJobs 0 (by decide) throwingOp 0
      (by decide) 2).1⟩

/-- Claim C4 witness: a context that sends cell 0 then mutates cell 1 gives
the same owner observation for two memories differing only at cell 1. -/
theorem claim_C4_witness :
    (∀ a ∈ sentAddrs [CtxInstr.sendMsg 0, CtxInstr.mutate 1 5],
        (fun _ => 0 : Nat → Nat) a = (fun b => if b = 0 then 0 else 7) a) ∧
    spawnAndObserve id [CtxInstr.sendMsg 0, CtxInstr.mutate 1 5] (fun _ => 0) =
      spawnAndObserve id [CtxInstr.sendMsg 0, CtxInstr.mutate 1 5]
        (fun b => if b = 0 then 0 else 7) := by
  have h : ∀ a ∈ sentAddrs [CtxInstr.sendMsg 0, CtxInstr.mutate 1 5],
      (fun _ => 0 : Nat → Nat) a = (fun b => if b = 0 then 0 else 7) a := by
    intro a ha
    simp [sentAddrs] at ha
    subst ha
    rfl
  exact ⟨h, (claim_C4_context_isolation id
    [CtxInstr.sendMsg 0, CtxInstr.mutate 1 5]
    (fun _ => 0) (fun b => if b = 0 then 0 else 7) h 9 9).1⟩

end NodeRt
